import Mathlib

/-!
Verification development for the business-gemini gateway.

The definitions below are a shallow embedding, translated from the Python
source, of the account pool cooldown state machine (`app/account_manager.py`),
the credential and session lifecycle (`app/session_manager.py`), and the
streaming chat pipeline (`app/chat_handler.py`).  Machine time (`time.time()`)
is modelled as an integer parameter `now`; network calls are modelled by
passing the would-be response values (`freshJwt`, `freshSession`) as
parameters.  The seconds-until-next-PT-midnight computation lives in a module
that is not part of the sources at hand, so it is abstracted as a function
parameter `pt : Int → Int`.
-/

namespace BG

/-- Quota kinds used by the pool (`"images"`, `"videos"`, `"text_queries"`). -/
inductive QuotaKind where
  | images
  | videos
  | textQueries
deriving DecidableEq, Repr

/-- One entry of the bounded per-account error record list
(`accounts[index]["quota_errors"]`). -/
structure QuotaErrorRec where
  status : Int
  quotaKind : Option QuotaKind
  detail : String
  time : Int
deriving DecidableEq, Repr

/-- Per-account state: the fields of `account_states[index]` together with the
mirror fields kept in `accounts[index]` that the cooldown machinery writes
(`quota_errors`, the mirrored `cooldown_until`) and the per-account
`conversation_sessions[index]` map. -/
structure AccountState where
  jwt : Option String
  jwt_time : Int
  session : Option String
  session_count : Nat
  session_created_time : Int
  available : Bool
  cooldown_until : Option Int
  cooldown_reason : String
  cookie_expired : Bool
  quota_type_cooldowns : QuotaKind → Int
  quota_errors : List QuotaErrorRec
  acc_cooldown_until : Option Int
  conversation_sessions : List (String × String)

/-- Account state as initialised by `load_config` for a fresh account. -/
def initState : AccountState where
  jwt := none
  jwt_time := 0
  session := none
  session_count := 0
  session_created_time := 0
  available := true
  cooldown_until := none
  cooldown_reason := ""
  cookie_expired := false
  quota_type_cooldowns := fun _ => 0
  quota_errors := []
  acc_cooldown_until := none
  conversation_sessions := []

/-- `AUTH_ERROR_COOLDOWN_SECONDS` from `app/config.py`. -/
def AUTH_ERROR_COOLDOWN_SECONDS : Int := 900

/-- `RATE_LIMIT_COOLDOWN_SECONDS` from `app/config.py`. -/
def RATE_LIMIT_COOLDOWN_SECONDS : Int := 300

/-- `GENERIC_ERROR_COOLDOWN_SECONDS` from `app/config.py`. -/
def GENERIC_ERROR_COOLDOWN_SECONDS : Int := 120

/-- Keep only the newest five error records
(`quota_errors[-5:]` after the append). -/
def keepLast5 (l : List QuotaErrorRec) : List QuotaErrorRec :=
  if l.length > 5 then l.drop (l.length - 5) else l

/-- The cooldown duration chosen by `mark_quota_error`: 429 with a quota
kind → seconds until the next PT midnight (modelled by `pt`), 429 without a
kind → `RATE_LIMIT_COOLDOWN_SECONDS`, 401/403 →
`AUTH_ERROR_COOLDOWN_SECONDS`, anything else →
`GENERIC_ERROR_COOLDOWN_SECONDS`. -/
def quotaCooldownSeconds (pt : Int → Int) (now status : Int)
    (quotaKind : Option QuotaKind) : Int :=
  if status = 429 then
    match quotaKind with
    | some _ => pt now
    | none => RATE_LIMIT_COOLDOWN_SECONDS
  else if status = 401 ∨ status = 403 then AUTH_ERROR_COOLDOWN_SECONDS
  else GENERIC_ERROR_COOLDOWN_SECONDS

/-- `AccountManager.mark_quota_error`.  `pt` models
`seconds_until_next_pt_midnight`, `now` models `time.time()`. -/
def mark_quota_error (pt : Int → Int) (now : Int) (status : Int)
    (detail : String) (quotaKind : Option QuotaKind) (s : AccountState) :
    AccountState :=
  let cooldownSeconds : Int := quotaCooldownSeconds pt now status quotaKind
  let newUntil := now + cooldownSeconds
  match quotaKind with
  | some qt =>
    let currentUntil := s.quota_type_cooldowns qt
    if currentUntil > now ∧ currentUntil ≥ newUntil then s
    else
      let untilTs := max newUntil currentUntil
      { s with
        quota_type_cooldowns := fun k =>
          if k = qt then untilTs else s.quota_type_cooldowns k
        quota_errors := keepLast5 (s.quota_errors ++
          [⟨status, some qt, detail.take 200, now⟩]) }
  | none =>
    let currentUntil := s.cooldown_until.getD 0
    if currentUntil > now ∧ currentUntil ≥ newUntil then s
    else
      let untilTs := max newUntil currentUntil
      let reason := "配额/权限错误 (HTTP " ++ toString status ++ ")" ++
        (if detail ≠ "" then ": " ++ detail.take 100 else "")
      { s with
        cooldown_until := some untilTs
        cooldown_reason := reason
        jwt := none
        jwt_time := 0
        session := none
        acc_cooldown_until := some untilTs
        quota_errors := keepLast5 (s.quota_errors ++
          [⟨status, none, detail.take 200, now⟩]) }

/-- `AccountManager.mark_account_cooldown`. -/
def mark_account_cooldown (now : Int) (reason : String)
    (cooldownSeconds : Option Int) (s : AccountState) : AccountState :=
  let cd := cooldownSeconds.getD GENERIC_ERROR_COOLDOWN_SECONDS
  let newUntil := now + cd
  let currentUntil := s.cooldown_until.getD 0
  if currentUntil > now ∧ currentUntil ≥ newUntil then s
  else
    let untilTs := max newUntil currentUntil
    { s with
      cooldown_until := some untilTs
      cooldown_reason := reason
      jwt := none
      jwt_time := 0
      session := none
      acc_cooldown_until := some untilTs }

/-- `AccountManager.mark_cookie_refreshed`: pops `cookie_expired`,
`cooldown_until` and `cooldown_reason`, restores `available = True`; the
per-quota-kind cooldowns, the cached JWT and the cached session are not
touched. -/
def mark_cookie_refreshed (s : AccountState) : AccountState :=
  { s with
    cookie_expired := false
    cooldown_until := none
    cooldown_reason := ""
    available := true
    acc_cooldown_until := none }

/-- `AccountManager._is_in_cooldown` (with an explicit `now`): a falsy
`cooldown_until` (absent or zero) means no cooldown. -/
def is_in_cooldown (now : Int) (s : AccountState) : Bool :=
  match s.cooldown_until with
  | none => false
  | some u => if u = 0 then false else decide (now < u)

/-- `AccountManager._is_quota_type_in_cooldown` (with an explicit `now`). -/
def is_quota_type_in_cooldown (now : Int) (qt : QuotaKind)
    (s : AccountState) : Bool :=
  let u := s.quota_type_cooldowns qt
  if u = 0 then false else decide (now < u)

/-- `AccountManager.is_account_available`. -/
def is_account_available (now : Int) (qt : Option QuotaKind)
    (s : AccountState) : Bool :=
  if !s.available then false
  else if is_in_cooldown now s then false
  else
    match qt with
    | some k => !is_quota_type_in_cooldown now k s
    | none => true

/-- One pool write operation, for stating properties of call sequences. -/
inductive PoolOp where
  | quotaError (now status : Int) (detail : String) (qt : Option QuotaKind)
  | accountCooldown (now : Int) (reason : String) (secs : Option Int)

/-- Apply one pool write operation. -/
def applyOp (pt : Int → Int) (s : AccountState) : PoolOp → AccountState
  | .quotaError now status detail qt => mark_quota_error pt now status detail qt s
  | .accountCooldown now reason secs => mark_account_cooldown now reason secs s

/-- `ensure_jwt_for_account` from `app/session_manager.py`.  A refresh is
needed when no JWT is cached or the cached one is older than 240 s; the
network fetch is modelled by the `freshJwt` parameter.  After a refresh the
cached session is cleared (`state["session"] = None`). -/
def ensure_jwt_for_account (now : Int) (freshJwt : String)
    (s : AccountState) : AccountState × String :=
  let needRefresh :=
    match s.jwt with
    | none => true
    | some _ => decide (now - s.jwt_time > 240)
  if needRefresh then
    ({ s with jwt := some freshJwt, jwt_time := now, session := none },
     freshJwt)
  else
    (s, s.jwt.getD "")

/-- Look up a conversation id in the per-account conversation session map. -/
def convLookup (m : List (String × String)) (cid : String) : Option String :=
  (m.find? (fun p => p.1 = cid)).map (fun p => p.2)

/-- Store a conversation session in the map (overwriting any old entry). -/
def convStore (m : List (String × String)) (cid v : String) :
    List (String × String) :=
  (cid, v) :: m.filter (fun p => p.1 ≠ cid)

/-- Remove a conversation id from the map. -/
def convErase (m : List (String × String)) (cid : String) :
    List (String × String) :=
  m.filter (fun p => p.1 ≠ cid)

/-- `ensure_session_for_account` from `app/session_manager.py`.  The
create-session network call is modelled by the `freshSession` parameter;
the returned triple is (new state, session name returned to the caller,
whether a new upstream session was created). -/
def ensure_session_for_account (now : Int) (freshJwt freshSession : String)
    (forceNew : Bool) (conversationId : Option String) (s0 : AccountState) :
    AccountState × String × Bool :=
  let p := ensure_jwt_for_account now freshJwt s0
  let s := p.1
  let reused : Option String :=
    if forceNew then none
    else
      match conversationId with
      | some cid => convLookup s.conversation_sessions cid
      | none => none
  match reused with
  | some sess => (s, sess, false)
  | none =>
    if forceNew = true ∨ s.session = none then
      let m1 :=
        if forceNew then
          match conversationId with
          | some cid => convErase s.conversation_sessions cid
          | none => s.conversation_sessions
        else s.conversation_sessions
      let m2 :=
        match conversationId with
        | some cid => convStore m1 cid freshSession
        | none => m1
      ({ s with conversation_sessions := m2, session := some freshSession },
       freshSession, true)
    else
      let sess := s.session.getD ""
      let m2 :=
        match conversationId with
        | some cid => convStore s.conversation_sessions cid sess
        | none => s.conversation_sessions
      ({ s with conversation_sessions := m2 }, sess, false)

/-- Python whitespace characters stripped by `str.strip()`. -/
def isPyWhitespace (c : Char) : Bool :=
  c = ' ' ∨ c = '\t' ∨ c = '\n' ∨ c = '\x0d' ∨ c = '\x0b' ∨ c = '\x0c'

/-- Python `str.strip()` on the modelled character set. -/
def pyStrip (s : String) : String :=
  ⟨(s.toList.dropWhile isPyWhitespace).reverse.dropWhile isPyWhitespace
    |>.reverse⟩

/-- Substring containment, modelling the Python `in` operator on strings. -/
def containsSub (s sub : String) : Bool :=
  decide ((s.splitOn sub).length ≠ 1)

/-- The noise literal filtered out of emitted text. -/
def nanoBananaNoise : String := "Image generated by Nano Banana Pro"

/-- The content of one upstream reply, as read by the streaming loops:
`reply["groundedContent"]["content"]` restricted to the fields the
text-filtering logic consults. -/
structure ReplyContent where
  text : String
  thought : Bool
deriving Repr

/-- One element of `answer["replies"]`, restricted to the fields the
text-filtering logic consults. -/
structure Reply where
  thought : Bool
  content : ReplyContent
deriving Repr

/-- The text-filtering body shared verbatim by
`stream_chat_realtime_generator` and `stream_chat_with_images`: the
`delta.content` contributed by one reply, or `none` when the reply is
filtered out. -/
def replyContribution (r : Reply) : Option String :=
  let text := r.content.text
  let thought := r.thought ∨ r.content.thought
  if text ≠ "" ∧ ¬thought ∧ ¬(pyStrip text).startsWith "**" then
    let filteredText :=
      if containsSub text nanoBananaNoise then
        pyStrip (String.intercalate "\n"
          ((text.splitOn "\n").filter
            (fun line => !containsSub (pyStrip line) nanoBananaNoise)))
      else text
    if pyStrip filteredText = "```json" ∨ pyStrip filteredText = "```" then
      none
    else if filteredText ≠ "" then some filteredText
    else none
  else none

/-- The `delta.content` texts emitted for a list of decoded replies, in
stream order. -/
def emittedTexts (rs : List Reply) : List String :=
  rs.filterMap replyContribution

/-- The `toolsSpec` object: which of the four capability entries are
present in the JSON sent upstream. -/
structure ToolsSpec where
  webGroundingSpec : Bool
  toolRegistry : Bool
  imageGenerationSpec : Bool
  videoGenerationSpec : Bool
deriving DecidableEq, Repr

/-- `get_tools_spec_for_model` from `app/chat_handler.py`. -/
def get_tools_spec_for_model (modelId : Option String) : ToolsSpec :=
  if modelId = some "gemini-image" then
    ⟨false, false, true, false⟩
  else if modelId = some "gemini-video" then
    ⟨false, false, false, true⟩
  else
    ⟨true, true, true, true⟩

/-- The fields of the `streamAssistRequest` body that depend on the model
id, as built by `stream_chat_realtime_generator` (and identically by
`stream_chat_with_images`): the tools spec and the optional
`assistGenerationConfig.modelId`. -/
structure StreamAssistBody where
  toolsSpec : ToolsSpec
  assistGenerationConfig : Option String
deriving DecidableEq, Repr

/-- Model-dependent part of the upstream request body: the
`assistGenerationConfig` entry is added only when a model id is given,
non-empty, and not one of the virtual ids `gemini-video` / `gemini-image`. -/
def build_stream_assist_body (modelId : Option String) : StreamAssistBody :=
  { toolsSpec := get_tools_spec_for_model modelId
    assistGenerationConfig :=
      match modelId with
      | some m =>
        if m ≠ "" ∧ m ≠ "gemini-video" ∧ m ≠ "gemini-image" then some m
        else none
      | none => none }

/-! Model of the JSON stream decoder (`JSONStreamParser`, `app/chat_handler.py`
lines 75-106).  The buffer logic is translated from the source; the
underlying one-value parser models the Python standard library
`json.JSONDecoder.raw_decode` (strict mode) restricted to the JSON fragment
the upstream emits: numbers are modelled as integers (no floats arise in the
claims), string escapes as the two escapes the canonical serializer below
produces, and the `NaN`/`Infinity` extensions are omitted.  The brace
characters are written as the escapes `\x7b` and `\x7d`. -/

/-- JSON values (numbers modelled as integers). -/
inductive JVal where
  | jnull
  | jbool (b : Bool)
  | jnum (n : Int)
  | jstr (cs : List Char)
  | jarr (xs : List JVal)
  | jobj (fs : List (List Char × JVal))

/-- Big-endian decimal digit list of a natural number. -/
def natDigits (n : Nat) : List Nat :=
  if h : n < 10 then [n] else natDigits (n / 10) ++ [n % 10]
decreasing_by exact Nat.div_lt_self (by omega) (by omega)

/-- Value of a big-endian digit list. -/
def valOfDigits (ds : List Nat) : Nat :=
  ds.foldl (fun a d => a * 10 + d) 0

/-- The character for one decimal digit. -/
def decDigitChar (d : Nat) : Char :=
  Char.ofNat (48 + d)

/-- Decimal serialization of a natural number. -/
def serNat (n : Nat) : List Char :=
  (natDigits n).map decDigitChar

/-- Decimal serialization of an integer. -/
def serInt (n : Int) : List Char :=
  if n < 0 then '-' :: serNat n.natAbs else serNat n.toNat

/-- JSON string escaping: the canonical serializer escapes the quote and the
backslash and emits every other character verbatim. -/
def escChar (c : Char) : List Char :=
  if c = '\"' ∨ c = '\\' then ['\\', c] else [c]

/-- Escape a whole string body. -/
def escStr (cs : List Char) : List Char :=
  cs.foldr (fun c acc => escChar c ++ acc) []

mutual
/-- Canonical JSON serialization (no whitespace), as the upstream emits
array elements. -/
def ser : JVal → List Char
  | .jnull => ['n', 'u', 'l', 'l']
  | .jbool true => ['t', 'r', 'u', 'e']
  | .jbool false => ['f', 'a', 'l', 's', 'e']
  | .jnum n => serInt n
  | .jstr cs => '\"' :: escStr cs ++ ['\"']
  | .jarr xs => '[' :: serItemsJ xs ++ [']']
  | .jobj fs => '\x7b' :: serFieldsJ fs ++ ['\x7d']

/-- Comma-separated serialization of array items. -/
def serItemsJ : List JVal → List Char
  | [] => []
  | [x] => ser x
  | x :: y :: rest => ser x ++ ',' :: serItemsJ (y :: rest)

/-- Comma-separated serialization of object members. -/
def serFieldsJ : List (List Char × JVal) → List Char
  | [] => []
  | [(k, v)] => '\"' :: escStr k ++ '\"' :: ':' :: ser v
  | (k, v) :: g :: rest =>
    ('\"' :: escStr k ++ '\"' :: ':' :: ser v) ++ ',' :: serFieldsJ (g :: rest)
end

mutual
/-- Well-formedness: every character of every string and key is at least
`0x20` (as guaranteed by JSON text, whose control characters are escaped). -/
def WFJ : JVal → Prop
  | .jnull => True
  | .jbool _ => True
  | .jnum _ => True
  | .jstr cs => ∀ c ∈ cs, 32 ≤ c.toNat
  | .jarr xs => WFListJ xs
  | .jobj fs => WFFieldsJ fs

/-- Well-formedness of a list of values. -/
def WFListJ : List JVal → Prop
  | [] => True
  | x :: xs => WFJ x ∧ WFListJ xs

/-- Well-formedness of object members. -/
def WFFieldsJ : List (List Char × JVal) → Prop
  | [] => True
  | (k, v) :: fs => (∀ c ∈ k, 32 ≤ c.toNat) ∧ WFJ v ∧ WFFieldsJ fs
end

/-- Whether a value is a JSON object. -/
def isObjJ : JVal → Bool
  | .jobj _ => true
  | _ => false

/-- JSON whitespace skipped by the scanner. -/
def isJsonWs (c : Char) : Bool :=
  c = ' ' ∨ c = '\t' ∨ c = '\n' ∨ c = '\x0d'

/-- Skip leading JSON whitespace. -/
def jskipWs (s : List Char) : List Char :=
  s.dropWhile isJsonWs

/-- Scan a string body after the opening quote (`py_scanstring`, strict):
stops at the closing quote, rejects raw control characters, understands the
escapes for quote and backslash. -/
def parseStringBody : List Char → Option (List Char × List Char)
  | [] => none
  | c :: rest =>
    if c = '\"' then some ([], rest)
    else if c = '\\' then
      match rest with
      | [] => none
      | e :: rest2 =>
        if e = '\"' ∨ e = '\\' then
          (parseStringBody rest2).map (fun p => (e :: p.1, p.2))
        else none
    else if c.toNat < 32 then none
    else (parseStringBody rest).map (fun p => (c :: p.1, p.2))

/-- Numeric value of a list of digit characters. -/
def digitsToNat (ds : List Char) : Nat :=
  ds.foldl (fun a c => a * 10 + (c.toNat - 48)) 0

/-- Scan a JSON number (restricted to the integers the serializer emits):
an optional minus sign followed by a maximal run of digits. -/
def parseNumber : List Char → Option (Int × List Char)
  | [] => none
  | c :: rest =>
    if c = '-' then
      let ds := rest.takeWhile Char.isDigit
      if ds.isEmpty then none
      else some (-(digitsToNat ds : Int), rest.dropWhile Char.isDigit)
    else
      let ds := (c :: rest).takeWhile Char.isDigit
      if ds.isEmpty then none
      else some ((digitsToNat ds : Int), (c :: rest).dropWhile Char.isDigit)

mutual
/-- Scan one JSON value from the front of the input
(`JSONDecoder.raw_decode` / `scan_once`); the fuel bounds the nesting
recursion and is in practice at least the input length plus one.  The
literal comparisons mirror the scanner comparing four-character slices. -/
def parseVal : Nat → List Char → Option (JVal × List Char)
  | 0, _ => none
  | _ + 1, [] => none
  | fuel + 1, c :: rest =>
    if c = '\"' then
      (parseStringBody rest).map (fun p => (JVal.jstr p.1, p.2))
    else if c = '\x7b' then
      match jskipWs rest with
      | [] => (parseMembersJ fuel []).map (fun p => (JVal.jobj p.1, p.2))
      | c2 :: r2 =>
        if c2 = '\x7d' then some (JVal.jobj [], r2)
        else (parseMembersJ fuel (c2 :: r2)).map (fun p => (JVal.jobj p.1, p.2))
    else if c = '[' then
      match jskipWs rest with
      | [] => (parseItemsJ fuel []).map (fun p => (JVal.jarr p.1, p.2))
      | c2 :: r2 =>
        if c2 = ']' then some (JVal.jarr [], r2)
        else (parseItemsJ fuel (c2 :: r2)).map (fun p => (JVal.jarr p.1, p.2))
    else if c = 'n' then
      if rest.take 3 = ['u', 'l', 'l'] then some (JVal.jnull, rest.drop 3)
      else none
    else if c = 't' then
      if rest.take 3 = ['r', 'u', 'e'] then some (JVal.jbool true, rest.drop 3)
      else none
    else if c = 'f' then
      if rest.take 4 = ['a', 'l', 's', 'e'] then
        some (JVal.jbool false, rest.drop 4)
      else none
    else
      (parseNumber (c :: rest)).map (fun p => (JVal.jnum p.1, p.2))

/-- Scan the members of an object, positioned at the first key (`JSONObject`
after the opening brace and whitespace, non-empty case). -/
def parseMembersJ : Nat → List Char → Option (List (List Char × JVal) × List Char)
  | 0, _ => none
  | fuel + 1, s =>
    match s with
    | [] => none
    | c :: rest =>
      if c = '\"' then
        match parseStringBody rest with
        | none => none
        | some (key, r1) =>
          match jskipWs r1 with
          | [] => none
          | c2 :: r2 =>
            if c2 = ':' then
              match parseVal fuel (jskipWs r2) with
              | none => none
              | some (v, r3) =>
                match jskipWs r3 with
                | [] => none
                | c3 :: r4 =>
                  if c3 = ',' then
                    match parseMembersJ fuel (jskipWs r4) with
                    | some (fs, r5) => some ((key, v) :: fs, r5)
                    | none => none
                  else if c3 = '\x7d' then some ([(key, v)], r4)
                  else none
            else none
      else none

/-- Scan the items of an array, positioned at the first item (`JSONArray`
after the opening bracket and whitespace, non-empty case). -/
def parseItemsJ : Nat → List Char → Option (List JVal × List Char)
  | 0, _ => none
  | fuel + 1, s =>
    match parseVal fuel s with
    | none => none
    | some (v, r1) =>
      match jskipWs r1 with
      | [] => none
      | c2 :: r2 =>
        if c2 = ',' then
          match parseItemsJ fuel (jskipWs r2) with
          | some (vs, r3) => some (v :: vs, r3)
          | none => none
        else if c2 = ']' then some ([v], r2)
        else none
end

/-- `raw_decode` on a buffer: scan one value with ample fuel. -/
def rawDecode (s : List Char) : Option (JVal × List Char) :=
  parseVal (s.length + 1) s

/-- Strip leading Python whitespace (`str.lstrip`). -/
def pyLstrip (s : List Char) : List Char :=
  s.dropWhile isPyWhitespace

/-- The `while True` loop of `JSONStreamParser.decode`: strip whitespace,
drop a leading `[` or `,` and continue, stop on an empty buffer, otherwise
scan one value — on success emit it and continue past it, on failure stop
and keep the buffer.  The fuel bounds the number of iterations and is in
practice the buffer length plus one. -/
def decodeLoop : Nat → List Char → List JVal × List Char
  | 0, buf => ([], buf)
  | fuel + 1, buf =>
    match pyLstrip buf with
    | '[' :: rest => decodeLoop fuel rest
    | ',' :: rest => decodeLoop fuel rest
    | [] => ([], [])
    | b =>
      match rawDecode b with
      | some (v, r) =>
        let p := decodeLoop fuel r
        (v :: p.1, p.2)
      | none => ([], b)

/-- `JSONStreamParser.decode`: append the chunk to the buffer and run the
loop; returns the decoded objects and the new buffer. -/
def decodeChunk (buffer chunk : List Char) : List JVal × List Char :=
  decodeLoop ((buffer ++ chunk).length + 1) (buffer ++ chunk)

/-- Feed a list of chunks through a fresh `JSONStreamParser`, collecting all
decoded objects in order. -/
def feedChunks (chunks : List (List Char)) : List JVal × List Char :=
  chunks.foldl (fun acc ch =>
    let r := decodeChunk acc.2 ch
    (acc.1 ++ r.1, r.2)) ([], [])

/-- Run the decoder over a list of chunks from an arbitrary starting
state (already decoded objects, retained buffer). -/
def feedFrom (st : List JVal × List Char) (chunks : List (List Char)) :
    List JVal × List Char :=
  chunks.foldl (fun acc ch =>
    let r := decodeChunk acc.2 ch
    (acc.1 ++ r.1, r.2)) st

/-- The remaining document text when `l` elements are still to be decoded;
`first` records whether the leading separator is the opening `[` or a
comma. -/
def dsuffix2 (first : Bool) (l : List JVal) : List Char :=
  match l, first with
  | [], true => ['[', ']']
  | [], false => [']']
  | l, true => '[' :: serItemsJ l ++ [']']
  | l, false => ',' :: serItemsJ l ++ [']']

/-- Invariant tying a decoder state (emitted values, retained buffer) to
the full element list: `m` elements are already emitted, and the buffer
followed by the unseen remainder `rest` of the document either is the
remaining document text, or starts strictly inside the serialization of
the next element, or the stream is exhausted with the closing bracket
retained. -/
def DecState (es out : List JVal) (buf rest : List Char) : Prop :=
  ∃ m, m ≤ es.length ∧ out = es.take m ∧
    ((buf = [] ∧ ∃ f, rest = dsuffix2 f (es.drop m)) ∨
     (∃ e tl, es.drop m = e :: tl ∧ buf ++ rest = ser e ++ dsuffix2 false tl ∧
       buf.length < (ser e).length) ∨
     (es.drop m = [] ∧ buf = [']'] ∧ rest = []))

/-! Theorems. -/

/-- C1, counterexample: `mark_quota_error` with status 401 applies the
15-minute cooldown but does not set `cookie_expired`; moreover when a quota
kind accompanies a 401 the cooldown is applied per-kind, not to the whole
account.  This refutes the claim that a 401/403 always gives a whole-account
cooldown and sets `cookie_expired = true`. -/
theorem mark_quota_error_401_no_cookie_expired :
    (mark_quota_error (fun _ => 0) 0 401 "" none initState).cookie_expired = false ∧
    (mark_quota_error (fun _ => 0) 0 401 "" none initState).cooldown_until = some 900 ∧
    (mark_quota_error (fun _ => 0) 0 401 "" (some .images) initState).cooldown_until = none ∧
    (mark_quota_error (fun _ => 0) 0 401 "" (some .images) initState).quota_type_cooldowns .images = 900 := by
  decide

/-- C1 (amended): `mark_quota_error` never touches `cookie_expired`; the
proposed cooldown duration is 429-with-kind → seconds until next PT midnight,
429-without-kind → 300 s, 401/403 → 900 s, anything else → 120 s; with a
kind it extends that kind's cooldown to the max of existing and proposed
(leaving the whole-account cooldown alone), and without a kind it extends
the whole-account cooldown likewise. -/
theorem mark_quota_error_cooldown_table (pt : Int → Int) (now status : Int)
    (detail : String) (s : AccountState) :
    (∀ qt, (mark_quota_error pt now status detail qt s).cookie_expired =
      s.cookie_expired) ∧
    (∀ k, (mark_quota_error pt now status detail (some k) s).quota_type_cooldowns k =
        max (now + quotaCooldownSeconds pt now status (some k))
          (s.quota_type_cooldowns k) ∧
      (mark_quota_error pt now status detail (some k) s).cooldown_until =
        s.cooldown_until) ∧
    ((mark_quota_error pt now status detail none s).cooldown_until.getD 0 =
      max (now + quotaCooldownSeconds pt now status none)
        (s.cooldown_until.getD 0)) ∧
    (∀ k, quotaCooldownSeconds pt now 429 (some k) = pt now) ∧
    quotaCooldownSeconds pt now 429 none = 300 ∧
    (∀ qt, quotaCooldownSeconds pt now 401 qt = 900 ∧
      quotaCooldownSeconds pt now 403 qt = 900) ∧
    (∀ qt, status ≠ 429 → status ≠ 401 → status ≠ 403 →
      quotaCooldownSeconds pt now status qt = 120) := by
  refine ⟨?_, ?_, ?_, ?_, ?_, ?_, ?_⟩
  · intro qt
    cases qt <;> unfold mark_quota_error <;> dsimp only <;>
    (repeat' split) <;> rfl
  · intro k
    unfold mark_quota_error
    dsimp only
    constructor
    · split
      · rename_i h
        omega
      · simp <;> omega
    · split <;> rfl
  · unfold mark_quota_error
    dsimp only
    split
    · rename_i h
      omega
    · simp only [Option.getD_some] <;> omega
  · intro k
    simp [quotaCooldownSeconds]
  · simp [quotaCooldownSeconds, RATE_LIMIT_COOLDOWN_SECONDS]
  · intro qt
    constructor <;>
    simp [quotaCooldownSeconds, AUTH_ERROR_COOLDOWN_SECONDS]
  · intro qt h1 h2 h3
    simp [quotaCooldownSeconds, GENERIC_ERROR_COOLDOWN_SECONDS, h1, h2, h3]

/-- C3, counterexample: an account whose state has `available = True` but
`cookie_expired = True` and no cooldowns is reported available by
`is_account_available`, refuting the claim that availability requires
`cookie_expired` to be false. -/
theorem is_account_available_ignores_cookie_expired :
    is_account_available 0 none { initState with cookie_expired := true } = true ∧
    ({ initState with cookie_expired := true } : AccountState).cookie_expired = true := by
  decide

/-- C3 (amended): `is_account_available` returns true iff the `available`
flag is set, the whole-account cooldown is absent, zero, or expired, and,
when a quota kind is given, that kind's cooldown is zero or expired; the
`cookie_expired` flag is not consulted. -/
theorem is_account_available_iff (now : Int) (qt : Option QuotaKind)
    (s : AccountState) :
    is_account_available now qt s = true ↔
    (s.available = true ∧
     (∀ u, s.cooldown_until = some u → u ≠ 0 → now ≥ u) ∧
     (∀ k, qt = some k → s.quota_type_cooldowns k ≠ 0 →
         now ≥ s.quota_type_cooldowns k)) := by
  unfold is_account_available is_in_cooldown is_quota_type_in_cooldown
  cases hcu : s.cooldown_until with
  | none =>
    cases qt with
    | none => simp
    | some k =>
      by_cases hk : s.quota_type_cooldowns k = 0 <;>
        simp [hk] <;> omega
  | some u =>
    by_cases hu : u = 0 <;>
    cases qt with
    | none =>
      first
      | (simp [hu]; omega)
      | simp [hu]
    | some k =>
      by_cases hk : s.quota_type_cooldowns k = 0 <;>
        simp [hu, hk] <;> omega

/-- C4, counterexample: `mark_cookie_refreshed` does not clear the
per-quota-kind cooldowns, so immediately afterwards the account is still
unavailable for a kind whose cooldown is active, refuting the claim that it
clears all per-quota-kind cooldowns and restores availability for every
kind. -/
theorem mark_cookie_refreshed_keeps_quota_cooldowns :
    (mark_cookie_refreshed { initState with
        quota_type_cooldowns := fun k => if k = .images then 10 else 0
    }).quota_type_cooldowns .images = 10 ∧
    is_account_available 5 (some .images)
    (mark_cookie_refreshed { initState with
        quota_type_cooldowns := fun k => if k = .images then 10 else 0 }) = false := by
  decide

/-- C4 (amended): `mark_cookie_refreshed` clears `cookie_expired` and the
whole-account cooldown and restores `available = true`, so the account is
immediately available when no quota kind is asked; it leaves the cached JWT,
the cached session and every per-quota-kind cooldown untouched, so
availability for a kind is still governed by that kind's cooldown. -/
theorem mark_cookie_refreshed_spec (s : AccountState) :
    (mark_cookie_refreshed s).cookie_expired = false ∧
    (mark_cookie_refreshed s).cooldown_until = none ∧
    (mark_cookie_refreshed s).available = true ∧
    (mark_cookie_refreshed s).jwt = s.jwt ∧
    (mark_cookie_refreshed s).session = s.session ∧
    (mark_cookie_refreshed s).quota_type_cooldowns = s.quota_type_cooldowns ∧
    (∀ now, is_account_available now none (mark_cookie_refreshed s) = true) ∧
    (∀ now k, is_account_available now (some k) (mark_cookie_refreshed s) =
    !is_quota_type_in_cooldown now k s) := by
  refine ⟨rfl, rfl, rfl, rfl, rfl, rfl, ?_, ?_⟩
  · intro now
    simp [mark_cookie_refreshed, is_account_available, is_in_cooldown]
  · intro now k
    simp [mark_cookie_refreshed, is_account_available, is_in_cooldown,
    is_quota_type_in_cooldown]

/-- Helper: a single pool write never decreases the whole-account cooldown
or any per-kind cooldown. -/
theorem applyOp_cooldown_mono (pt : Int → Int) (s : AccountState) (op : PoolOp) :
    s.cooldown_until.getD 0 ≤ (applyOp pt s op).cooldown_until.getD 0 ∧
    ∀ k, s.quota_type_cooldowns k ≤ (applyOp pt s op).quota_type_cooldowns k := by
  cases op with
  | quotaError now status detail qt =>
    cases qt with
    | none =>
      dsimp only [applyOp]
      unfold mark_quota_error
      dsimp only
      split
      · exact ⟨le_refl _, fun k => le_refl _⟩
      · refine ⟨?_, fun k => le_refl _⟩
        simp only [Option.getD_some] <;> omega
    | some q =>
      dsimp only [applyOp]
      unfold mark_quota_error
      dsimp only
      split
      · exact ⟨le_refl _, fun k => le_refl _⟩
      · refine ⟨le_refl _, fun k => ?_⟩
        by_cases hk : k = q
        · subst hk
          simp <;> omega
        · simp [hk] <;> omega
  | accountCooldown now reason secs =>
    dsimp only [applyOp]
    unfold mark_account_cooldown
    dsimp only
    split
    · exact ⟨le_refl _, fun k => le_refl _⟩
    · refine ⟨?_, fun k => le_refl _⟩
      simp only [Option.getD_some] <;> omega

/-- Helper: monotonicity of the stored cooldowns over a whole sequence of
pool writes. -/
theorem foldOps_cooldown_mono (pt : Int → Int) (ops : List PoolOp)
    (s : AccountState) :
    s.cooldown_until.getD 0 ≤ (ops.foldl (applyOp pt) s).cooldown_until.getD 0 ∧
    ∀ k, s.quota_type_cooldowns k ≤
    (ops.foldl (applyOp pt) s).quota_type_cooldowns k := by
  induction ops generalizing s with
  | nil => exact ⟨le_refl _, fun k => le_refl _⟩
  | cons op rest ih =>
    have h1 := applyOp_cooldown_mono pt s op
    have h2 := ih (applyOp pt s op)
    exact ⟨le_trans h1.1 h2.1, fun k => le_trans (h1.2 k) (h2.2 k)⟩

/-- C2: over any sequence of `mark_quota_error` / `mark_account_cooldown`
calls the stored whole-account cooldown and every per-kind cooldown are
non-decreasing; `mark_account_cooldown` stores the max of the existing and
the proposed cooldown, and a proposal shorter than a currently active
cooldown leaves the state completely unchanged. -/
theorem cooldown_monotone (pt : Int → Int) (ops : List PoolOp)
    (now : Int) (reason : String) (secs : Option Int) (s : AccountState) :
    (s.cooldown_until.getD 0 ≤ (ops.foldl (applyOp pt) s).cooldown_until.getD 0 ∧
     ∀ k, s.quota_type_cooldowns k ≤
     (ops.foldl (applyOp pt) s).quota_type_cooldowns k) ∧
    (mark_account_cooldown now reason secs s).cooldown_until.getD 0 =
    max (now + secs.getD GENERIC_ERROR_COOLDOWN_SECONDS)
        (s.cooldown_until.getD 0) ∧
    (∀ c, s.cooldown_until = some c → c > now →
    now + secs.getD GENERIC_ERROR_COOLDOWN_SECONDS ≤ c →
    mark_account_cooldown now reason secs s = s) := by
  refine ⟨foldOps_cooldown_mono pt ops s, ?_, ?_⟩
  · unfold mark_account_cooldown
    dsimp only
    split
    · rename_i h
      omega
    · simp only [Option.getD_some] <;> omega
  · intro c hc hgt hle
    unfold mark_account_cooldown
    dsimp only
    rw [if_pos]
    rw [hc]
    simp only [Option.getD_some]
    omega

/-- C2 witness: a concrete instance — with a cooldown active until 1000, a
proposal of 10 seconds at time 0 leaves the state unchanged. -/
theorem cooldown_monotone_witness :
    mark_account_cooldown 0 "retry" (some 10)
    { initState with cooldown_until := some 1000 } =
    { initState with cooldown_until := some 1000 } :=
  (cooldown_monotone (fun _ => 0) [] 0 "retry" (some 10)
    { initState with cooldown_until := some 1000 }).2.2 1000 rfl
    (by decide) (by decide)

/-- Helper: the truncated error list holds at most 5 entries beyond nothing,
and appending one entry then truncating keeps the length below
`max (original length) 5`. -/
theorem keepLast5_append_length (l : List QuotaErrorRec) (e : QuotaErrorRec) :
    (keepLast5 (l ++ [e])).length ≤ max l.length 5 := by
  unfold keepLast5
  split
  · rename_i h
    simp only [List.length_drop, List.length_append, List.length_cons,
    List.length_nil] at h ⊢
    omega
  · rename_i h
    simp only [List.length_append, List.length_cons, List.length_nil] at h ⊢
    omega

/-- C10: `mark_quota_error` with a quota kind changes only that kind's
cooldown entry and the bounded error record list — the whole-account
cooldown (both copies), the `available` flag, `cookie_expired`, the cached
JWT, `jwt_time` and the cached session are untouched — whereas the
whole-account branch (no kind) either is a no-op or additionally clears the
cached JWT and session. -/
theorem mark_quota_error_per_kind_frame (pt : Int → Int) (now status : Int)
    (detail : String) (k : QuotaKind) (s : AccountState) :
    ((mark_quota_error pt now status detail (some k) s).cooldown_until =
        s.cooldown_until ∧
     (mark_quota_error pt now status detail (some k) s).acc_cooldown_until =
        s.acc_cooldown_until ∧
     (mark_quota_error pt now status detail (some k) s).available = s.available ∧
     (mark_quota_error pt now status detail (some k) s).jwt = s.jwt ∧
     (mark_quota_error pt now status detail (some k) s).jwt_time = s.jwt_time ∧
     (mark_quota_error pt now status detail (some k) s).session = s.session ∧
     (mark_quota_error pt now status detail (some k) s).cookie_expired =
        s.cookie_expired ∧
     (∀ m, m ≠ k →
     (mark_quota_error pt now status detail (some k) s).quota_type_cooldowns m =
         s.quota_type_cooldowns m) ∧
     ((mark_quota_error pt now status detail (some k) s).quota_errors =
        s.quota_errors ∨
    (mark_quota_error pt now status detail (some k) s).quota_errors =
        keepLast5 (s.quota_errors ++ [⟨status, some k, detail.take 200, now⟩])) ∧
     (mark_quota_error pt now status detail (some k) s).quota_errors.length ≤
        max s.quota_errors.length 5) ∧
    (mark_quota_error pt now status detail none s = s ∨
    ((mark_quota_error pt now status detail none s).jwt = none ∧
     (mark_quota_error pt now status detail none s).jwt_time = 0 ∧
     (mark_quota_error pt now status detail none s).session = none)) := by
  constructor
  · unfold mark_quota_error
    dsimp only
    split
    · exact ⟨rfl, rfl, rfl, rfl, rfl, rfl, rfl, fun m hm => rfl, Or.inl rfl,
        le_max_left _ _⟩
    · refine ⟨rfl, rfl, rfl, rfl, rfl, rfl, rfl, fun m hm => ?_, Or.inr rfl, ?_⟩
      · simp only [if_neg hm]
      · exact keepLast5_append_length _ _
  · unfold mark_quota_error
    dsimp only
    split
    · exact Or.inl rfl
    · exact Or.inr ⟨rfl, rfl, rfl⟩

/-- C10 witness: concrete instance of the per-kind frame property. -/
theorem mark_quota_error_per_kind_frame_witness :
    (mark_quota_error (fun _ => 3600) 0 429 "quota" (some .images) initState).cooldown_until =
    initState.cooldown_until ∧
    (mark_quota_error (fun _ => 3600) 0 429 "quota" (some .images) initState).quota_type_cooldowns .videos =
    initState.quota_type_cooldowns .videos :=
  ⟨(mark_quota_error_per_kind_frame (fun _ => 3600) 0 429 "quota" .images initState).1.1,
   (mark_quota_error_per_kind_frame (fun _ => 3600) 0 429 "quota" .images initState).1.2.2.2.2.2.2.2.1
     QuotaKind.videos (by decide)⟩

/-- C6, counterexample: refreshing the JWT (here: no JWT is cached, so the
refresh path is taken) clears the cached session, refuting the claim that
the JWT refresh path leaves the cached session unchanged. -/
theorem ensure_jwt_clears_session :
    (ensure_jwt_for_account 0 "newjwt"
    { initState with session := some "sess0" }).1.session = none ∧
    ({ initState with session := some "sess0" } : AccountState).session =
    some "sess0" := by
  decide

/-- C6 (amended): when a refresh is needed (no cached JWT, or the cached one
is older than 240 s) `ensure_jwt_for_account` stores the fresh JWT, records
its fetch time and clears the cached session; when the cached JWT is fresh
it changes nothing and returns the cached JWT. -/
theorem ensure_jwt_for_account_spec (now : Int) (fj : String)
    (s : AccountState) :
    ((s.jwt = none ∨ now - s.jwt_time > 240) →
    ensure_jwt_for_account now fj s =
        ({ s with jwt := some fj, jwt_time := now, session := none }, fj)) ∧
    ((s.jwt ≠ none ∧ now - s.jwt_time ≤ 240) →
    ensure_jwt_for_account now fj s = (s, s.jwt.getD "")) := by
  constructor
  · intro h
    unfold ensure_jwt_for_account
    cases hj : s.jwt with
    | none => rfl
    | some j =>
    have hage : now - s.jwt_time > 240 := by
        rcases h with h | h
        · rw [hj] at h; cases h
        · exact h
    simp [hage]
  · rintro ⟨h1, h2⟩
    unfold ensure_jwt_for_account
    cases hj : s.jwt with
    | none => exact absurd hj h1
    | some j =>
    have : ¬(now - s.jwt_time > 240) := by omega
    simp [this, hj]

/-- C6 witness: a stale JWT (age 241 s) is refreshed and the session is
cleared; a fresh JWT (age 0) is reused unchanged. -/
theorem ensure_jwt_for_account_spec_witness :
    ensure_jwt_for_account 241 "fresh"
        { initState with jwt := some "old", session := some "sess0" } =
    ({ initState with jwt := some "fresh", jwt_time := 241, session := none },
     "fresh") ∧
    ensure_jwt_for_account 0 "fresh"
        { initState with jwt := some "old", session := some "sess0" } =
    ({ initState with jwt := some "old", session := some "sess0" }, "old") :=
  ⟨(ensure_jwt_for_account_spec 241 "fresh"
    { initState with jwt := some "old", session := some "sess0" }).1
    (Or.inr (by decide)),
   (ensure_jwt_for_account_spec 0 "fresh"
    { initState with jwt := some "old", session := some "sess0" }).2
    ⟨by decide, by decide⟩⟩

/-- C5, counterexample: with a cached session and a fresh JWT, 51 successive
`ensure_session_for_account` calls with no time passing reuse the same
session — the 51st call does not create a new one — refuting the claimed
50-use rotation. -/
theorem no_session_count_rotation :
    ((fun s => (ensure_session_for_account 0 "j2" "newsess" false none s).1)^[51]
        { initState with jwt := some "j", session := some "sess0" }).session =
    some "sess0" ∧
    (ensure_session_for_account 0 "j2" "newsess" false none
        ((fun s => (ensure_session_for_account 0 "j2" "newsess" false none s).1)^[50]
          { initState with jwt := some "j", session := some "sess0" })).2.2 =
    false := by
  have hfix :
    (fun s => (ensure_session_for_account 0 "j2" "newsess" false none s).1)
        { initState with jwt := some "j", session := some "sess0" } =
    { initState with jwt := some "j", session := some "sess0" } := rfl
  rw [Function.iterate_fixed hfix, Function.iterate_fixed hfix]
  exact ⟨rfl, rfl⟩

/-- C5 (amended): `ensure_session_for_account` has no use-count rotation —
the use count is never even incremented — and with a fresh JWT and a cached
session it reuses that session unchanged, arbitrarily many times; a new
session is created exactly when none is cached or the JWT was stale (older
than 240 s, which in particular covers any gap longer than 12 hours), the
refresh having cleared the cached session. -/
theorem ensure_session_for_account_spec (now : Int) (fj fs : String)
    (s : AccountState) :
    ((s.jwt ≠ none ∧ now - s.jwt_time ≤ 240) → ∀ ss, s.session = some ss →
    ensure_session_for_account now fj fs false none s = (s, ss, false)) ∧
    ((s.jwt = none ∨ now - s.jwt_time > 240) →
    (ensure_session_for_account now fj fs false none s).1.session = some fs ∧
    (ensure_session_for_account now fj fs false none s).2.2 = true) ∧
    (∀ fn cid, (ensure_session_for_account now fj fs fn cid s).1.session_count =
    s.session_count) := by
  refine ⟨?_, ?_, ?_⟩
  · intro h ss hss
    unfold ensure_session_for_account
    rw [(ensure_jwt_for_account_spec now fj s).2 h]
    dsimp only
    rw [hss]
    simp
    rw [← hss]
  · intro h
    unfold ensure_session_for_account
    rw [(ensure_jwt_for_account_spec now fj s).1 h]
    dsimp only
    simp
  · intro fn cid
    unfold ensure_session_for_account
    cases hr : ensure_jwt_for_account now fj s with
    | mk s1 j1 =>
    have hsc : s1.session_count = s.session_count := by
        rcases (em (s.jwt = none ∨ now - s.jwt_time > 240)) with h | h
        · have := (ensure_jwt_for_account_spec now fj s).1 h
          rw [hr] at this
          simp at this
          rw [this.1]
        · push_neg at h
          have := (ensure_jwt_for_account_spec now fj s).2 ⟨h.1, by omega⟩
          rw [hr] at this
          simp at this
          rw [this.1]
    dsimp only
    (repeat' split) <;> simp [hsc]

/-- C5 witness: with a fresh JWT and cached session the call reuses the
session (creating nothing), and with a 241-second-old JWT the next call
creates a new session. -/
theorem ensure_session_for_account_spec_witness :
    ensure_session_for_account 0 "j2" "ns" false none
        { initState with jwt := some "j", session := some "sess0" } =
    ({ initState with jwt := some "j", session := some "sess0" },
     "sess0", false) ∧
    (ensure_session_for_account 241 "j2" "ns" false none
        { initState with jwt := some "j", session := some "sess0" }).1.session =
    some "ns" :=
  ⟨(ensure_session_for_account_spec 0 "j2" "ns"
    { initState with jwt := some "j", session := some "sess0" }).1
    ⟨by decide, by decide⟩ "sess0" rfl,
   ((ensure_session_for_account_spec 241 "j2" "ns"
    { initState with jwt := some "j", session := some "sess0" }).2.1
    (Or.inr (by decide))).1⟩

/-- C8: a reply whose `thought` flag is set at the reply or the content
level, or whose whitespace-stripped text starts with `**`, contributes no
`delta.content` chunk; consequently the emitted text stream equals the one
computed from the well-behaved replies alone. -/
theorem thought_filtering :
    (∀ r : Reply,
    (r.thought = true ∨ r.content.thought = true ∨
        (pyStrip r.content.text).startsWith "**" = true) →
    replyContribution r = none) ∧
    (∀ rs : List Reply,
    emittedTexts rs = emittedTexts (rs.filter (fun x =>
        !(x.thought || x.content.thought ||
          (pyStrip x.content.text).startsWith "**")))) := by
  have h1 : ∀ r : Reply,
    (r.thought = true ∨ r.content.thought = true ∨
        (pyStrip r.content.text).startsWith "**" = true) →
    replyContribution r = none := by
    intro r hbad
    unfold replyContribution
    rcases hbad with h | h | h <;> simp [h]
  refine ⟨h1, ?_⟩
  intro rs
  induction rs with
  | nil => rfl
  | cons a t ih =>
    simp only [emittedTexts] at ih ⊢
    by_cases hb : (a.thought || a.content.thought ||
        (pyStrip a.content.text).startsWith "**") = true
    · have hbad : a.thought = true ∨ a.content.thought = true ∨
          (pyStrip a.content.text).startsWith "**" = true := by
        rcases (Bool.or_eq_true _ _).mp hb with h | h
        · rcases (Bool.or_eq_true _ _).mp h with h2 | h2
          · exact Or.inl h2
          · exact Or.inr (Or.inl h2)
        · exact Or.inr (Or.inr h)
      have hnone := h1 a hbad
      rw [List.filter_cons_of_neg (by simp [hb])]
      simp only [List.filterMap_cons, hnone]
      exact ih
    · have hb' : (a.thought || a.content.thought ||
          (pyStrip a.content.text).startsWith "**") = false := by
        simpa using hb
      rw [List.filter_cons_of_pos (by simp [hb'])]
      cases hfa : replyContribution a with
      | none =>
        simp only [List.filterMap_cons, hfa]
        exact ih
      | some v =>
        simp only [List.filterMap_cons, hfa]
        rw [ih]

/-- C8 witness: a reply marked as thought contributes nothing. -/
theorem thought_filtering_witness :
    replyContribution ⟨true, ⟨"planning...", false⟩⟩ = none :=
  thought_filtering.1 ⟨true, ⟨"planning...", false⟩⟩ (Or.inl rfl)

/-- C9, counterexample: the ids `image-gen` / `video-gen` are not the
virtual model ids the code recognises — for model id `image-gen` the
request body forwards `assistGenerationConfig.modelId = "image-gen"` and
carries the full tool spec, refuting the claim as stated. -/
theorem virtual_model_ids_counterexample :
    (build_stream_assist_body (some "image-gen")).assistGenerationConfig =
    some "image-gen" ∧
    (build_stream_assist_body (some "image-gen")).toolsSpec =
    ⟨true, true, true, true⟩ ∧
    (build_stream_assist_body (some "video-gen")).assistGenerationConfig =
    some "video-gen" := by
  decide

/-- C9 (amended): the virtual model ids are `gemini-image` and
`gemini-video`: for those the upstream body carries no
`assistGenerationConfig` and the tools spec is narrowed to image-only
respectively video-only; any other non-empty model id is forwarded in
`assistGenerationConfig` together with the full tool spec. -/
theorem virtual_model_ids (m : String) :
    (build_stream_assist_body (some "gemini-image")).assistGenerationConfig =
    none ∧
    (build_stream_assist_body (some "gemini-image")).toolsSpec =
    ⟨false, false, true, false⟩ ∧
    (build_stream_assist_body (some "gemini-video")).assistGenerationConfig =
    none ∧
    (build_stream_assist_body (some "gemini-video")).toolsSpec =
    ⟨false, false, false, true⟩ ∧
    (m ≠ "" → m ≠ "gemini-image" → m ≠ "gemini-video" →
    (build_stream_assist_body (some m)).assistGenerationConfig = some m ∧
    (build_stream_assist_body (some m)).toolsSpec =
        ⟨true, true, true, true⟩) := by
  refine ⟨by decide, by decide, by decide, by decide, ?_⟩
  intro h1 h2 h3
  constructor
  · simp [build_stream_assist_body, h1, h2, h3]
  · simp [build_stream_assist_body, get_tools_spec_for_model, h2, h3]

/-- C9 witness: a regular configured model id is forwarded upstream. -/
theorem virtual_model_ids_witness :
    (build_stream_assist_body (some "gemini-2.5-pro")).assistGenerationConfig =
    some "gemini-2.5-pro" :=
  ((virtual_model_ids "gemini-2.5-pro").2.2.2.2
    (by decide) (by decide) (by decide)).1

/-! Lemmas for the stream-decoder claim. -/

/-- Digit characters: the character of a digit below ten is a digit
character, has the expected code point, and is none of the characters the
scanner treats specially. -/
theorem digitChar_props (d : Nat) (h : d < 10) :
    (decDigitChar d).isDigit = true ∧ (decDigitChar d).toNat = 48 + d ∧
    decDigitChar d ≠ '\"' ∧ decDigitChar d ≠ '\x7b' ∧ decDigitChar d ≠ '[' ∧
    decDigitChar d ≠ 'n' ∧ decDigitChar d ≠ 't' ∧ decDigitChar d ≠ 'f' ∧
    decDigitChar d ≠ '-' ∧ isJsonWs (decDigitChar d) = false ∧
    isPyWhitespace (decDigitChar d) = false ∧ decDigitChar d ≠ ']' ∧
    decDigitChar d ≠ '\x7d' ∧ decDigitChar d ≠ ',' ∧ decDigitChar d ≠ ':' ∧
    decDigitChar d ≠ '\\' := by
  interval_cases d <;> exact ⟨rfl, rfl, by decide, by decide, by decide,
    by decide, by decide, by decide, by decide, rfl, rfl, by decide,
    by decide, by decide, by decide, by decide⟩

/-- The digit list of a natural number is non-empty and all its entries are
below ten. -/
theorem toDigs_lt (n : Nat) : natDigits n ≠ [] ∧ ∀ d ∈ natDigits n, d < 10 := by
  induction n using Nat.strong_induction_on with
  | _ n ih =>
    rw [natDigits]
    split
    · rename_i h
      exact ⟨by simp, by simpa using h⟩
    · rename_i h
      have hlt : n / 10 < n := Nat.div_lt_self (by omega) (by omega)
      refine ⟨by simp, ?_⟩
      intro d hd
      rcases List.mem_append.mp hd with hd | hd
      · exact (ih _ hlt).2 d hd
      · simp at hd
        subst hd
        omega

/-- Value of a digit list with one more digit appended. -/
theorem digsVal_append (ds : List Nat) (d : Nat) :
    valOfDigits (ds ++ [d]) = 10 * valOfDigits ds + d := by
  simp [valOfDigits, List.foldl_append]
  omega

/-- Round trip: the value of the digit list of `n` is `n`. -/
theorem digsVal_toDigs (n : Nat) : valOfDigits (natDigits n) = n := by
  induction n using Nat.strong_induction_on with
  | _ n ih =>
    rw [natDigits]
    split
    · simp [valOfDigits]
    · rename_i h
      have hlt : n / 10 < n := Nat.div_lt_self (by omega) (by omega)
      rw [digsVal_append, ih _ hlt]
      omega

/-- Reading a rendered digit list back as a number. -/
theorem digitsToNat_map (ds : List Nat) (h : ∀ d ∈ ds, d < 10) :
    digitsToNat (ds.map decDigitChar) = valOfDigits ds := by
  unfold digitsToNat valOfDigits
  induction ds using List.reverseRecOn with
  | nil => rfl
  | append_singleton ds d ih =>
    have hd : d < 10 := h d (by simp)
    have hds : ∀ x ∈ ds, x < 10 := fun x hx => h x (by simp [hx])
    simp only [List.map_append, List.map_cons, List.map_nil,
    List.foldl_append, List.foldl_cons, List.foldl_nil]
    rw [ih hds, (digitChar_props d hd).2.1]
    omega

/-- `takeWhile`/`dropWhile` on a block of satisfying characters followed by
a non-satisfying (or empty) remainder. -/
theorem takeWhile_dropWhile_append (p : Char → Bool) (ds rest : List Char)
    (hall : ∀ c ∈ ds, p c = true)
    (hrest : ∀ c, rest.head? = some c → p c = false) :
    (ds ++ rest).takeWhile p = ds ∧ (ds ++ rest).dropWhile p = rest := by
  induction ds with
  | nil =>
    simp only [List.nil_append]
    cases rest with
    | nil => simp
    | cons c r =>
    have := hrest c rfl
    simp [List.takeWhile, List.dropWhile, this]
  | cons c ds ih =>
    have hc := hall c (by simp)
    have ih2 := ih (fun x hx => hall x (by simp [hx]))
    simp [List.takeWhile, List.dropWhile, hc, ih2.1, ih2.2]

/-- The serialization of a natural number is a non-empty list of digit
characters. -/
theorem serNat_digits (n : Nat) :
    serNat n ≠ [] ∧ ∀ c ∈ serNat n, c.isDigit = true := by
  unfold serNat
  refine ⟨by simp [(toDigs_lt n).1], ?_⟩
  intro c hc
  rcases List.mem_map.mp hc with ⟨d, hd, rfl⟩
  exact (digitChar_props d ((toDigs_lt n).2 d hd)).1

/-- Step lemma: scanning a number at a leading minus sign. -/
theorem parseNumber_minus (rest : List Char) :
    parseNumber ('-' :: rest) =
    (if (rest.takeWhile Char.isDigit).isEmpty then none
     else some (-(digitsToNat (rest.takeWhile Char.isDigit) : Int),
         rest.dropWhile Char.isDigit)) := by
  rw [parseNumber.eq_def]
  simp

/-- Step lemma: scanning a number at a character other than a minus sign. -/
theorem parseNumber_other (c : Char) (rest : List Char) (h : c ≠ '-') :
    parseNumber (c :: rest) =
    (if ((c :: rest).takeWhile Char.isDigit).isEmpty then none
     else some ((digitsToNat ((c :: rest).takeWhile Char.isDigit) : Int),
         (c :: rest).dropWhile Char.isDigit)) := by
  rw [parseNumber.eq_def]
  simp only [h, if_false, ite_false]

/-- Step lemma: scanning the string body at the closing quote. -/
theorem parseStringBody_quote (rest : List Char) :
    parseStringBody ('\"' :: rest) = some ([], rest) := by
  rw [parseStringBody.eq_def]
  simp

/-- Step lemma: scanning the string body at a lone backslash. -/
theorem parseStringBody_backslash_nil :
    parseStringBody ['\\'] = none := by
  rw [parseStringBody.eq_def]
  simp

/-- Step lemma: scanning the string body at a recognised escape. -/
theorem parseStringBody_escape (e : Char) (r2 : List Char)
    (h : e = '\"' ∨ e = '\\') :
    parseStringBody ('\\' :: e :: r2) =
    (parseStringBody r2).map (fun p => (e :: p.1, p.2)) := by
  rw [parseStringBody.eq_def]
  simp only [if_neg (by decide : ¬('\\' : Char) = '\"'), if_pos rfl, h,
    if_pos, ite_true]

/-- Step lemma: scanning the string body at an ordinary character. -/
theorem parseStringBody_raw (c : Char) (rest : List Char)
    (h1 : c ≠ '\"') (h2 : c ≠ '\\') (h3 : 32 ≤ c.toNat) :
    parseStringBody (c :: rest) =
    (parseStringBody rest).map (fun p => (c :: p.1, p.2)) := by
  rw [parseStringBody.eq_def]
  simp only [h1, h2, if_false, ite_false, if_neg (by omega : ¬c.toNat < 32)]

/-- Scanning a serialized integer followed by a non-digit remainder yields
exactly that integer and the remainder. -/
theorem parseNumber_ser (n : Int) (rest : List Char)
    (hrest : ∀ c, rest.head? = some c → c.isDigit = false) :
    parseNumber (serInt n ++ rest) = some (n, rest) := by
  have habs := serNat_digits n.natAbs
  have hto := serNat_digits n.toNat
  have hval : ∀ m : Nat, digitsToNat (serNat m) = m := by
    intro m
    unfold serNat
    rw [digitsToNat_map _ (toDigs_lt _).2, digsVal_toDigs]
  unfold serInt
  split
  · rename_i hneg
    have htd := takeWhile_dropWhile_append Char.isDigit (serNat n.natAbs)
      rest habs.2 hrest
    rw [List.cons_append, parseNumber_minus, htd.1, htd.2,
    if_neg (by simp [List.isEmpty_iff, habs.1]), hval]
    have hcast : -(n.natAbs : Int) = n := by omega
    rw [hcast]
  · rename_i hneg
    have htd := takeWhile_dropWhile_append Char.isDigit (serNat n.toNat)
      rest hto.2 hrest
    cases hsn : serNat n.toNat with
    | nil => exact absurd hsn hto.1
    | cons c cs =>
      have hcd : c.isDigit = true := hto.2 c (by rw [hsn]; simp)
      have hcm : c ≠ '-' := by
        intro h
        rw [h] at hcd
        simp at hcd
      rw [hsn] at htd
      rw [List.cons_append] at htd
      rw [List.cons_append, parseNumber_other c _ hcm, htd.1, htd.2,
        if_neg (by simp)]
      rw [← hsn, hval]
      have hcast : (n.toNat : Int) = n := by omega
      rw [hcast]

/-- Scanning a non-empty strict prefix of a serialized integer either fails
or consumes the whole prefix. -/
theorem parseNumber_cut (n : Int) (p q : List Char)
    (hsplit : serInt n = p ++ q) (hq : q ≠ []) (hp : p ≠ []) :
    parseNumber p = none ∨ ∃ u, parseNumber p = some (u, []) := by
  have hdig : ∀ ds : List Char, (∀ c ∈ ds, c.isDigit = true) → ds ≠ [] →
    ∃ u, parseNumber ds = some (u, []) := by
    intro ds hall hne
    cases ds with
    | nil => exact absurd rfl hne
    | cons c cs =>
    have hcd := hall c (by simp)
    have hcm : c ≠ '-' := by
        intro h
        rw [h] at hcd
        simp at hcd
    have htd := takeWhile_dropWhile_append Char.isDigit (c :: cs) []
        hall (by intro x hx; simp at hx)
    rw [List.append_nil] at htd
    refine ⟨digitsToNat (c :: cs), ?_⟩
    rw [parseNumber_other c _ hcm, htd.1, htd.2, if_neg (by simp)]
  unfold serInt at hsplit
  split at hsplit
  · cases p with
    | nil => exact absurd rfl hp
    | cons a p2 =>
    simp only [List.cons_append, List.cons.injEq] at hsplit
    obtain ⟨rfl, hsn⟩ := hsplit
    cases p2 with
    | nil =>
        left
        rw [parseNumber_minus]
        simp
    | cons b p3 =>
        have hall : ∀ c ∈ b :: p3, c.isDigit = true := by
          intro c hc
          refine (serNat_digits n.natAbs).2 c ?_
          rw [hsn]
          rcases List.mem_cons.mp hc with h | h
          · exact List.mem_cons.mpr (Or.inl h)
          · exact List.mem_cons.mpr (Or.inr (List.mem_append.mpr (Or.inl h)))
        right
        have htd := takeWhile_dropWhile_append Char.isDigit (b :: p3) []
          hall (by intro x hx; simp at hx)
        rw [List.append_nil] at htd
        refine ⟨-(digitsToNat (b :: p3) : Int), ?_⟩
        rw [parseNumber_minus, htd.1, htd.2, if_neg (by simp)]
  · right
    refine hdig p ?_ hp
    intro c hc
    refine (serNat_digits n.toNat).2 c ?_
    rw [hsplit]
    exact List.mem_append.mpr (Or.inl hc)

/-- Scanning an escaped string body followed by the closing quote yields the
original characters and the remainder. -/
theorem parseStringBody_ser (cs rest : List Char)
    (hwf : ∀ c ∈ cs, 32 ≤ c.toNat) :
    parseStringBody (escStr cs ++ '\"' :: rest) = some (cs, rest) := by
  induction cs with
  | nil =>
    show parseStringBody ('\"' :: rest) = some ([], rest)
    exact parseStringBody_quote rest
  | cons c cs ih =>
    have hc := hwf c (by simp)
    have ih2 := ih (fun x hx => hwf x (by simp [hx]))
    have hcons : escStr (c :: cs) = escChar c ++ escStr cs := rfl
    rw [hcons]
    by_cases hesc : c = '\"' ∨ c = '\\'
    · rw [show escChar c = ['\\', c] from by simp [escChar, hesc]]
      simp only [List.cons_append, List.nil_append]
      rw [parseStringBody_escape c _ hesc, ih2]
      rfl
    · rw [show escChar c = [c] from by simp [escChar, hesc]]
      push_neg at hesc
      simp only [List.cons_append, List.nil_append]
      rw [parseStringBody_raw c _ hesc.1 hesc.2 hc, ih2]
      rfl

/-- Scanning a strict prefix of an escaped, quote-terminated string body
fails (the closing quote is missing). -/
theorem parseStringBody_cut (cs : List Char) :
    ∀ p q : List Char, (∀ c ∈ cs, 32 ≤ c.toNat) →
    escStr cs ++ ['\"'] = p ++ q → q ≠ [] →
    parseStringBody p = none := by
  induction cs with
  | nil =>
    intro p q hwf hsplit hq
    simp only [escStr, List.foldr_nil, List.nil_append] at hsplit
    cases p with
    | nil => rfl
    | cons a p2 =>
      simp only [List.cons_append, List.cons.injEq] at hsplit
      have : p2 ++ q = [] := hsplit.2.symm
      simp at this
      exact absurd this.2 hq
  | cons c cs ih =>
    intro p q hwf hsplit hq
    have hc := hwf c (by simp)
    have hcons : escStr (c :: cs) = escChar c ++ escStr cs := rfl
    rw [hcons] at hsplit
    by_cases hesc : c = '\"' ∨ c = '\\'
    · rw [show escChar c = ['\\', c] from by simp [escChar, hesc]] at hsplit
      simp only [List.cons_append, List.nil_append, List.append_assoc] at hsplit
      cases p with
      | nil => rfl
      | cons a p2 =>
        simp only [List.cons_append, List.cons.injEq] at hsplit
        obtain ⟨rfl, hsplit2⟩ := hsplit
        cases p2 with
        | nil => exact parseStringBody_backslash_nil
        | cons b p3 =>
          simp only [List.cons_append, List.cons.injEq] at hsplit2
          obtain ⟨rfl, hsplit3⟩ := hsplit2
          have hrec := ih p3 q (fun x hx => hwf x (by simp [hx]))
            hsplit3 hq
          rw [parseStringBody_escape c _ hesc, hrec]
          rfl
    · rw [show escChar c = [c] from by simp [escChar, hesc]] at hsplit
      push_neg at hesc
      simp only [List.cons_append, List.nil_append] at hsplit
      cases p with
      | nil => rfl
      | cons a p2 =>
        simp only [List.cons_append, List.cons.injEq] at hsplit
        obtain ⟨rfl, hsplit2⟩ := hsplit
        have hrec := ih p2 q (fun x hx => hwf x (by simp [hx]))
          hsplit2 hq
        rw [parseStringBody_raw c _ hesc.1 hesc.2 hc, hrec]
        rfl

/-- Skipping JSON whitespace before a non-whitespace character is the
identity. -/
theorem jskipWs_cons (c : Char) (r : List Char) (h : isJsonWs c = false) :
    jskipWs (c :: r) = c :: r := by
  simp [jskipWs, List.dropWhile_cons, h]

/-- Stripping Python whitespace before a non-whitespace character is the
identity. -/
theorem pyLstrip_cons (c : Char) (r : List Char) (h : isPyWhitespace c = false) :
    pyLstrip (c :: r) = c :: r := by
  simp [pyLstrip, List.dropWhile_cons, h]

/-- Item-list serialization of a cons cell. -/
theorem serItemsJ_cons (x : JVal) (xs : List JVal) :
    serItemsJ (x :: xs) =
    ser x ++ (if xs.isEmpty then [] else ',' :: serItemsJ xs) := by
  cases xs <;> simp [serItemsJ]

/-- Member-list serialization of a cons cell. -/
theorem serFieldsJ_cons (k : List Char) (v : JVal)
    (fs : List (List Char × JVal)) :
    serFieldsJ ((k, v) :: fs) =
    '\"' :: escStr k ++ '\"' :: ':' :: ser v ++
        (if fs.isEmpty then [] else ',' :: serFieldsJ fs) := by
  cases fs <;> simp [serFieldsJ]

/-- The first character of any serialized value: it exists, is not
whitespace, and is not a closing delimiter, comma or colon. -/
theorem ser_head (v : JVal) :
    ∃ c t, ser v = c :: t ∧ isJsonWs c = false ∧ isPyWhitespace c = false ∧
    c ≠ ']' ∧ c ≠ '\x7d' ∧ c ≠ ',' ∧ c ≠ ':' := by
  cases v with
  | jnull => exact ⟨'n', ['u', 'l', 'l'], by simp [ser], rfl, rfl, by decide,
    by decide, by decide, by decide⟩
  | jbool b =>
    cases b with
    | true => exact ⟨'t', ['r', 'u', 'e'], by simp [ser], rfl, rfl,
        by decide, by decide, by decide, by decide⟩
    | false => exact ⟨'f', ['a', 'l', 's', 'e'], by simp [ser], rfl, rfl,
        by decide, by decide, by decide, by decide⟩
  | jstr cs => exact ⟨'\"', escStr cs ++ ['\"'], by simp [ser], rfl, rfl,
    by decide, by decide, by decide, by decide⟩
  | jarr xs => exact ⟨'[', serItemsJ xs ++ [']'], by simp [ser], rfl, rfl,
    by decide, by decide, by decide, by decide⟩
  | jobj fs => exact ⟨'\x7b', serFieldsJ fs ++ ['\x7d'], by simp [ser], rfl,
    rfl, by decide, by decide, by decide, by decide⟩
  | jnum n =>
    show ∃ c t, serInt n = c :: t ∧ _
    unfold serInt
    split
    · exact ⟨'-', _, rfl, rfl, rfl, by decide, by decide, by decide,
        by decide⟩
    · cases hsn : serNat n.toNat with
    | nil => exact absurd hsn (serNat_digits n.toNat).1
    | cons c cs =>
        have : c ∈ serNat n.toNat := by rw [hsn]; simp
        rcases List.mem_map.mp this with ⟨d, hd, rfl⟩
        have hp := digitChar_props d ((toDigs_lt _).2 d hd)
        exact ⟨decDigitChar d, cs, rfl, hp.2.2.2.2.2.2.2.2.2.1,
          hp.2.2.2.2.2.2.2.2.2.2.1, hp.2.2.2.2.2.2.2.2.2.2.2.1,
          hp.2.2.2.2.2.2.2.2.2.2.2.2.1, hp.2.2.2.2.2.2.2.2.2.2.2.2.2.1,
          hp.2.2.2.2.2.2.2.2.2.2.2.2.2.2.1⟩

/-- The first character of a serialized integer is a minus sign or a digit,
so the scanner dispatch falls through to the number branch. -/
theorem serInt_head (n : Int) :
    ∃ c t, serInt n = c :: t ∧ c ≠ '\"' ∧ c ≠ '\x7b' ∧ c ≠ '[' ∧
    c ≠ 'n' ∧ c ≠ 't' ∧ c ≠ 'f' := by
  unfold serInt
  split
  · exact ⟨'-', _, rfl, by decide, by decide, by decide, by decide,
    by decide, by decide⟩
  · cases hsn : serNat n.toNat with
    | nil => exact absurd hsn (serNat_digits n.toNat).1
    | cons c cs =>
    have : c ∈ serNat n.toNat := by rw [hsn]; simp
    rcases List.mem_map.mp this with ⟨d, hd, rfl⟩
    have hp := digitChar_props d ((toDigs_lt _).2 d hd)
    exact ⟨decDigitChar d, cs, rfl, hp.2.2.1, hp.2.2.2.1, hp.2.2.2.2.1,
        hp.2.2.2.2.2.1, hp.2.2.2.2.2.2.1, hp.2.2.2.2.2.2.2.1⟩

/-- The scanner on an empty input fails. -/
theorem parseVal_nil (fuel : Nat) : parseVal fuel [] = none := by
  cases fuel <;> rw [parseVal.eq_def]

/-- Step lemma: the scanner at an opening quote. -/
theorem parseVal_quote (fuel : Nat) (rest : List Char) :
    parseVal (fuel + 1) ('\"' :: rest) =
    (parseStringBody rest).map (fun p => (JVal.jstr p.1, p.2)) := by
  rw [parseVal.eq_def]
  simp

/-- Step lemma: the scanner at an opening brace whose content starts with a
closing brace. -/
theorem parseVal_obj_close (fuel : Nat) (rest r2 : List Char)
    (h : jskipWs rest = '\x7d' :: r2) :
    parseVal (fuel + 1) ('\x7b' :: rest) = some (JVal.jobj [], r2) := by
  rw [parseVal.eq_def]
  simp only [if_neg (by decide : ¬('\x7b' : Char) = '\"'), if_pos rfl, h]
  simp

/-- Step lemma: the scanner at an opening brace followed by a non-empty,
non-brace content. -/
theorem parseVal_obj_go (fuel : Nat) (rest : List Char) (c2 : Char)
    (r2 : List Char) (hws : jskipWs rest = c2 :: r2) (hc2 : c2 ≠ '\x7d') :
    parseVal (fuel + 1) ('\x7b' :: rest) =
    (parseMembersJ fuel (c2 :: r2)).map
        (fun p => (JVal.jobj p.1, p.2)) := by
  rw [parseVal.eq_def]
  simp only [if_neg (by decide : ¬('\x7b' : Char) = '\"'), if_pos rfl, hws]
  simp [hc2]

/-- Step lemma: the scanner at an opening bracket whose content starts with
a closing bracket. -/
theorem parseVal_arr_close (fuel : Nat) (rest r2 : List Char)
    (h : jskipWs rest = ']' :: r2) :
    parseVal (fuel + 1) ('[' :: rest) = some (JVal.jarr [], r2) := by
  rw [parseVal.eq_def]
  simp only [if_neg (by decide : ¬('[' : Char) = '\"'),
    if_neg (by decide : ¬('[' : Char) = '\x7b'), if_pos rfl, h]
  simp

/-- Step lemma: the scanner at an opening bracket followed by a non-empty,
non-bracket content. -/
theorem parseVal_arr_go (fuel : Nat) (rest : List Char) (c2 : Char)
    (r2 : List Char) (hws : jskipWs rest = c2 :: r2) (hc2 : c2 ≠ ']') :
    parseVal (fuel + 1) ('[' :: rest) =
    (parseItemsJ fuel (c2 :: r2)).map
        (fun p => (JVal.jarr p.1, p.2)) := by
  rw [parseVal.eq_def]
  simp only [if_neg (by decide : ¬('[' : Char) = '\"'),
    if_neg (by decide : ¬('[' : Char) = '\x7b'), if_pos rfl, hws]
  simp [hc2]

/-- Step lemma: the scanner at an `n` dispatches on the `null` literal. -/
theorem parseVal_n (fuel : Nat) (rest : List Char) :
    parseVal (fuel + 1) ('n' :: rest) =
    (if rest.take 3 = ['u', 'l', 'l'] then some (JVal.jnull, rest.drop 3)
     else none) := by
  rw [parseVal.eq_def]
  simp

/-- Step lemma: the scanner at a `t` dispatches on the `true` literal. -/
theorem parseVal_t (fuel : Nat) (rest : List Char) :
    parseVal (fuel + 1) ('t' :: rest) =
    (if rest.take 3 = ['r', 'u', 'e'] then some (JVal.jbool true, rest.drop 3)
     else none) := by
  rw [parseVal.eq_def]
  simp

/-- Step lemma: the scanner at an `f` dispatches on the `false` literal. -/
theorem parseVal_f (fuel : Nat) (rest : List Char) :
    parseVal (fuel + 1) ('f' :: rest) =
    (if rest.take 4 = ['a', 'l', 's', 'e'] then
        some (JVal.jbool false, rest.drop 4)
     else none) := by
  rw [parseVal.eq_def]
  simp

/-- Step lemma: the scanner at any other character scans a number. -/
theorem parseVal_other (fuel : Nat) (c : Char) (rest : List Char)
    (h1 : c ≠ '\"') (h2 : c ≠ '\x7b') (h3 : c ≠ '[') (h4 : c ≠ 'n')
    (h5 : c ≠ 't') (h6 : c ≠ 'f') :
    parseVal (fuel + 1) (c :: rest) =
    (parseNumber (c :: rest)).map (fun p => (JVal.jnum p.1, p.2)) := by
  rw [parseVal.eq_def]
  simp only [h1, h2, h3, h4, h5, h6, if_false, ite_false]

/-- The members scanner fails on an empty input or anything not starting
with a quote. -/
theorem parseMembersJ_nonquote (fuel : Nat) (s : List Char)
    (h : ∀ rest, s ≠ '\"' :: rest) :
    parseMembersJ fuel s = none := by
  cases fuel with
  | zero => rw [parseMembersJ.eq_def]
  | succ f =>
    rw [parseMembersJ.eq_def]
    cases s with
    | nil => rfl
    | cons c rest =>
    have hc : c ≠ '\"' := by
        intro he
        exact h rest (by rw [he])
    simp [hc]

/-- Step lemma: the members scanner at an opening key quote. -/
theorem parseMembersJ_quote (fuel : Nat) (rest : List Char) :
    parseMembersJ (fuel + 1) ('\"' :: rest) =
    (match parseStringBody rest with
     | none => none
     | some (key, r1) =>
         match jskipWs r1 with
         | [] => none
         | c2 :: r2 =>
           if c2 = ':' then
             match parseVal fuel (jskipWs r2) with
             | none => none
             | some (v, r3) =>
               match jskipWs r3 with
               | [] => none
               | c3 :: r4 =>
                 if c3 = ',' then
                   match parseMembersJ fuel (jskipWs r4) with
                   | some (fs, r5) => some ((key, v) :: fs, r5)
                   | none => none
                 else if c3 = '\x7d' then some ([(key, v)], r4)
                 else none
           else none) := by
  rw [parseMembersJ.eq_def]
  simp

/-- The items scanner fails with fuel zero. -/
theorem parseItemsJ_zero (s : List Char) : parseItemsJ 0 s = none := by
  rw [parseItemsJ.eq_def]

/-- Serializer equation for `null`. -/
theorem ser_null : ser JVal.jnull = ['n', 'u', 'l', 'l'] := by simp [ser]

/-- Serializer equation for `true`. -/
theorem ser_true : ser (JVal.jbool true) = ['t', 'r', 'u', 'e'] := by
  simp [ser]

/-- Serializer equation for `false`. -/
theorem ser_false : ser (JVal.jbool false) = ['f', 'a', 'l', 's', 'e'] := by
  simp [ser]

/-- Serializer equation for numbers. -/
theorem ser_num (n : Int) : ser (JVal.jnum n) = serInt n := by simp [ser]

/-- Serializer equation for strings. -/
theorem ser_str (cs : List Char) :
    ser (JVal.jstr cs) = '\"' :: escStr cs ++ ['\"'] := by simp [ser]

/-- Serializer equation for arrays. -/
theorem ser_arr (xs : List JVal) :
    ser (JVal.jarr xs) = '[' :: serItemsJ xs ++ [']'] := by simp [ser]

/-- Serializer equation for objects. -/
theorem ser_obj (fs : List (List Char × JVal)) :
    ser (JVal.jobj fs) = '\x7b' :: serFieldsJ fs ++ ['\x7d'] := by simp [ser]

/-- Serializer equation for the empty item list. -/
theorem serItemsJ_nil : serItemsJ [] = [] := by simp [serItemsJ]

/-- Serializer equation for the empty member list. -/
theorem serFieldsJ_nil : serFieldsJ [] = [] := by simp [serFieldsJ]

/-- Well-formedness unfolding for strings. -/
theorem WFJ_str (cs : List Char) :
    WFJ (JVal.jstr cs) = ∀ c ∈ cs, 32 ≤ c.toNat := by simp [WFJ]

/-- Well-formedness unfolding for arrays. -/
theorem WFJ_arr (xs : List JVal) : WFJ (JVal.jarr xs) = WFListJ xs := by
  simp [WFJ]

/-- Well-formedness unfolding for objects. -/
theorem WFJ_obj (fs : List (List Char × JVal)) :
    WFJ (JVal.jobj fs) = WFFieldsJ fs := by simp [WFJ]

/-- Well-formedness unfolding for a value list. -/
theorem WFListJ_cons (x : JVal) (xs : List JVal) :
    WFListJ (x :: xs) = (WFJ x ∧ WFListJ xs) := by simp [WFListJ]

/-- Well-formedness unfolding for a member list. -/
theorem WFFieldsJ_cons (k : List Char) (v : JVal)
    (fs : List (List Char × JVal)) :
    WFFieldsJ ((k, v) :: fs) =
    ((∀ c ∈ k, 32 ≤ c.toNat) ∧ WFJ v ∧ WFFieldsJ fs) := by simp [WFFieldsJ]

/-- Skipping whitespace in front of a serialized value does nothing. -/
theorem jskipWs_ser (v : JVal) (X : List Char) :
    jskipWs (ser v ++ X) = ser v ++ X := by
  obtain ⟨c, t, hct, hcws, -, -, -, -, -⟩ := ser_head v
  rw [hct, List.cons_append, jskipWs_cons c _ hcws]

/-- Skipping whitespace in front of a serialized member list does
nothing. -/
theorem jskipWs_serFields (k : List Char) (v : JVal)
    (fs : List (List Char × JVal)) (X : List Char) :
    jskipWs (serFieldsJ ((k, v) :: fs) ++ X) =
    serFieldsJ ((k, v) :: fs) ++ X := by
  rw [serFieldsJ_cons]
  simp only [List.cons_append]
  exact jskipWs_cons _ _ (by decide)

/-- Step lemma: the items scanner scans one value and continues. -/
theorem parseItemsJ_succ (fuel : Nat) (s : List Char) :
    parseItemsJ (fuel + 1) s =
    (match parseVal fuel s with
     | none => none
     | some (v, r1) =>
         match jskipWs r1 with
         | [] => none
         | c2 :: r2 =>
           if c2 = ',' then
             match parseItemsJ fuel (jskipWs r2) with
             | some (vs, r3) => some (v :: vs, r3)
             | none => none
           else if c2 = ']' then some ([v], r2)
           else none) := by
  rw [parseItemsJ.eq_def]

/-- The scanner fails with fuel zero. -/
theorem parseVal_zero (s : List Char) : parseVal 0 s = none := by
  rw [parseVal.eq_def]

/-- The members scanner fails with fuel zero. -/
theorem parseMembersJ_zero (s : List Char) : parseMembersJ 0 s = none := by
  rw [parseMembersJ.eq_def]

/-- The members scanner fails on an empty input. -/
theorem parseMembersJ_nil (fuel : Nat) : parseMembersJ fuel [] = none := by
  cases fuel <;> rw [parseMembersJ.eq_def]

/-- The items scanner fails on an empty input. -/
theorem parseItemsJ_nil (fuel : Nat) : parseItemsJ fuel [] = none := by
  cases fuel with
  | zero => rw [parseItemsJ.eq_def]
  | succ f => rw [parseItemsJ_succ, parseVal_nil]

/-- Step lemma: the scanner at an opening brace with empty content fails. -/
theorem parseVal_obj_nil (fuel : Nat) (rest : List Char)
    (h : jskipWs rest = []) :
    parseVal (fuel + 1) ('\x7b' :: rest) = none := by
  rw [parseVal.eq_def]
  simp only [if_neg (by decide : ¬('\x7b' : Char) = '\"'), if_pos rfl, h]
  simp [parseMembersJ_nil]

/-- Step lemma: the scanner at an opening bracket with empty content
fails. -/
theorem parseVal_arr_nil (fuel : Nat) (rest : List Char)
    (h : jskipWs rest = []) :
    parseVal (fuel + 1) ('[' :: rest) = none := by
  rw [parseVal.eq_def]
  simp only [if_neg (by decide : ¬('[' : Char) = '\"'),
    if_neg (by decide : ¬('[' : Char) = '\x7b'), if_pos rfl, h]
  simp [parseItemsJ_nil]

/-- Fuel monotonicity of the three scanners: a scan that succeeds with some
fuel returns the same result with any larger fuel. -/
theorem parse_mono (fuel : Nat) :
    (∀ (s : List Char) (fuel' : Nat) (x : JVal × List Char), fuel ≤ fuel' →
      parseVal fuel s = some x → parseVal fuel' s = some x) ∧
    (∀ (s : List Char) (fuel' : Nat)
      (x : List (List Char × JVal) × List Char), fuel ≤ fuel' →
      parseMembersJ fuel s = some x → parseMembersJ fuel' s = some x) ∧
    (∀ (s : List Char) (fuel' : Nat) (x : List JVal × List Char),
      fuel ≤ fuel' → parseItemsJ fuel s = some x →
      parseItemsJ fuel' s = some x) := by
  induction fuel with
  | zero =>
    refine ⟨?_, ?_, ?_⟩ <;> intro s fuel' x hle h
    · rw [parseVal_zero] at h
      exact absurd h (by simp)
    · rw [parseMembersJ_zero] at h
      exact absurd h (by simp)
    · rw [parseItemsJ_zero] at h
      exact absurd h (by simp)
  | succ f ih =>
    refine ⟨?_, ?_, ?_⟩
    · intro s fuel' x hle h
      obtain ⟨g, rfl⟩ : ∃ g, fuel' = g + 1 := ⟨fuel' - 1, by omega⟩
      have hfg : f ≤ g := by omega
      cases s with
      | nil =>
        rw [parseVal_nil] at h
        exact absurd h (by simp)
      | cons c rest =>
        by_cases h1 : c = '\"'
        · subst h1
          rw [parseVal_quote] at h ⊢
          exact h
        · by_cases h2 : c = '\x7b'
          · subst h2
            cases hws : jskipWs rest with
            | nil =>
              rw [parseVal_obj_nil _ _ hws] at h
              exact absurd h (by simp)
            | cons c2 r2 =>
              by_cases hc2 : c2 = '\x7d'
              · subst hc2
                rw [parseVal_obj_close _ _ _ hws] at h ⊢
                exact h
              · rw [parseVal_obj_go _ _ _ _ hws hc2] at h ⊢
                rcases Option.map_eq_some'.mp h with ⟨p, hp, hpe⟩
                rw [ih.2.1 _ _ _ hfg hp]
                simp [hpe]
          · by_cases h3 : c = '['
            · subst h3
              cases hws : jskipWs rest with
              | nil =>
                rw [parseVal_arr_nil _ _ hws] at h
                exact absurd h (by simp)
              | cons c2 r2 =>
                by_cases hc2 : c2 = ']'
                · subst hc2
                  rw [parseVal_arr_close _ _ _ hws] at h ⊢
                  exact h
                · rw [parseVal_arr_go _ _ _ _ hws hc2] at h ⊢
                  rcases Option.map_eq_some'.mp h with ⟨p, hp, hpe⟩
                  rw [ih.2.2 _ _ _ hfg hp]
                  simp [hpe]
            · by_cases h4 : c = 'n'
              · subst h4
                rw [parseVal_n] at h ⊢
                exact h
              · by_cases h5 : c = 't'
                · subst h5
                  rw [parseVal_t] at h ⊢
                  exact h
                · by_cases h6 : c = 'f'
                  · subst h6
                    rw [parseVal_f] at h ⊢
                    exact h
                  · rw [parseVal_other _ c _ h1 h2 h3 h4 h5 h6] at h ⊢
                    exact h
    · intro s fuel' x hle h
      obtain ⟨g, rfl⟩ : ∃ g, fuel' = g + 1 := ⟨fuel' - 1, by omega⟩
      have hfg : f ≤ g := by omega
      cases s with
      | nil =>
        rw [parseMembersJ_nil] at h
        exact absurd h (by simp)
      | cons c rest =>
        by_cases hc : c = '\"'
        · subst hc
          rw [parseMembersJ_quote] at h ⊢
          cases hsb : parseStringBody rest with
          | none =>
            rw [hsb] at h
            simp at h
          | some kr =>
            obtain ⟨key, r1⟩ := kr
            rw [hsb] at h
            dsimp only at h ⊢
            cases hws : jskipWs r1 with
            | nil =>
              rw [hws] at h
              simp at h
            | cons c2 r2 =>
              rw [hws] at h
              dsimp only at h ⊢
              by_cases hc2 : c2 = ':'
              · rw [if_pos hc2] at h ⊢
                cases hv : parseVal f (jskipWs r2) with
                | none =>
                  rw [hv] at h
                  simp at h
                | some vr =>
                  obtain ⟨v, r3⟩ := vr
                  rw [hv] at h
                  rw [ih.1 _ _ _ hfg hv]
                  dsimp only at h ⊢
                  cases hw3 : jskipWs r3 with
                  | nil =>
                    rw [hw3] at h
                    simp at h
                  | cons c3 r4 =>
                    rw [hw3] at h
                    dsimp only at h ⊢
                    by_cases hc3 : c3 = ','
                    · rw [if_pos hc3] at h ⊢
                      cases hm : parseMembersJ f (jskipWs r4) with
                      | none =>
                        rw [hm] at h
                        simp at h
                      | some fr =>
                        obtain ⟨fs5, r5⟩ := fr
                        rw [hm] at h
                        rw [ih.2.1 _ _ _ hfg hm]
                        exact h
                    · rw [if_neg hc3] at h ⊢
                      exact h
              · rw [if_neg hc2] at h
                exact absurd h (by simp)
        · have hn : ∀ fu, parseMembersJ fu (c :: rest) = none := by
            intro fu
            refine parseMembersJ_nonquote fu _ ?_
            intro r hr
            simp at hr
            exact hc hr.1
          rw [hn] at h
          exact absurd h (by simp)
    · intro s fuel' x hle h
      obtain ⟨g, rfl⟩ : ∃ g, fuel' = g + 1 := ⟨fuel' - 1, by omega⟩
      have hfg : f ≤ g := by omega
      rw [parseItemsJ_succ] at h ⊢
      cases hv : parseVal f s with
      | none =>
        rw [hv] at h
        simp at h
      | some vr =>
        obtain ⟨v, r1⟩ := vr
        rw [hv] at h
        rw [ih.1 _ _ _ hfg hv]
        dsimp only at h ⊢
        cases hws : jskipWs r1 with
        | nil =>
          rw [hws] at h
          simp at h
        | cons c2 r2 =>
          rw [hws] at h
          dsimp only at h ⊢
          by_cases hc2 : c2 = ','
          · rw [if_pos hc2] at h ⊢
            cases hits : parseItemsJ f (jskipWs r2) with
            | none =>
              rw [hits] at h
              simp at h
            | some pr =>
              obtain ⟨vs, r3⟩ := pr
              rw [hits] at h
              rw [ih.2.2 _ _ _ hfg hits]
              exact h
          · rw [if_neg hc2] at h ⊢
            exact h

/-- Round trip for the scanner, all three mutual scanners together,
by strong induction on a bound of the structural size: scanning a
serialized value (resp. member list, item list) followed by a suitable
remainder consumes exactly that value (resp. list). -/
theorem parse_ser_triple (N : Nat) :
    (∀ (v : JVal) (rest : List Char) (fuel : Nat), sizeOf v ≤ N → WFJ v →
    (∀ c, rest.head? = some c → c.isDigit = false) →
    (ser v).length < fuel →
    parseVal fuel (ser v ++ rest) = some (v, rest)) ∧
    (∀ (fs : List (List Char × JVal)) (rest : List Char) (fuel : Nat),
    sizeOf fs ≤ N → fs ≠ [] → WFFieldsJ fs →
    (serFieldsJ fs).length + 1 < fuel →
    parseMembersJ fuel (serFieldsJ fs ++ '\x7d' :: rest) =
        some (fs, rest)) ∧
    (∀ (xs : List JVal) (rest : List Char) (fuel : Nat),
    sizeOf xs ≤ N → xs ≠ [] → WFListJ xs →
    (serItemsJ xs).length + 1 < fuel →
    parseItemsJ fuel (serItemsJ xs ++ ']' :: rest) = some (xs, rest)) := by
  induction N using Nat.strong_induction_on with
  | _ N ih =>
  refine ⟨?_, ?_, ?_⟩
  · intro v rest fuel hN hwf hrest hfuel
    cases fuel with
    | zero => omega
    | succ f =>
      cases v with
      | jnull =>
        rw [ser_null]
        rw [show (['n', 'u', 'l', 'l'] : List Char) ++ rest =
          'n' :: ('u' :: 'l' :: 'l' :: rest) from rfl]
        rw [parseVal_n]
        simp
      | jbool b =>
        cases b with
        | true =>
          rw [ser_true]
          rw [show (['t', 'r', 'u', 'e'] : List Char) ++ rest =
            't' :: ('r' :: 'u' :: 'e' :: rest) from rfl]
          rw [parseVal_t]
          simp
        | false =>
          rw [ser_false]
          rw [show (['f', 'a', 'l', 's', 'e'] : List Char) ++ rest =
            'f' :: ('a' :: 'l' :: 's' :: 'e' :: rest) from rfl]
          rw [parseVal_f]
          simp
      | jnum n =>
        obtain ⟨c, t, hct, h1, h2, h3, h4, h5, h6⟩ := serInt_head n
        rw [ser_num, hct, List.cons_append,
          parseVal_other f c _ h1 h2 h3 h4 h5 h6, ← List.cons_append, ← hct,
          parseNumber_ser n rest hrest]
        rfl
      | jstr cs =>
        rw [WFJ_str] at hwf
        have hin : ser (JVal.jstr cs) ++ rest =
            '\"' :: (escStr cs ++ '\"' :: rest) := by
          rw [ser_str]
          simp
        rw [hin, parseVal_quote, parseStringBody_ser cs rest hwf]
        rfl
      | jarr xs =>
        rw [WFJ_arr] at hwf
        cases xs with
        | nil =>
          rw [ser_arr, serItemsJ_nil]
          rw [show ('[' :: ([] : List Char) ++ [']']) ++ rest =
            '[' :: (']' :: rest) from rfl]
          exact parseVal_arr_close f _ rest (jskipWs_cons _ _ (by decide))
        | cons x xs =>
          obtain ⟨c, t, hct, hcws, -, hcrb, -, -, -⟩ := ser_head x
          have hlenx : (ser x).length ≤ (serItemsJ (x :: xs)).length := by
            rw [serItemsJ_cons]
            simp [List.length_append]
          have hlen2 : (serItemsJ (x :: xs)).length + 2 =
              (ser (JVal.jarr (x :: xs))).length := by
            rw [ser_arr]
            simp [List.length_append]
          have hhead : serItemsJ (x :: xs) ++ ']' :: rest =
              c :: (t ++ ((if xs.isEmpty then [] else ',' :: serItemsJ xs) ++
                ']' :: rest)) := by
            rw [serItemsJ_cons, hct]
            simp
          have hin : ser (JVal.jarr (x :: xs)) ++ rest =
              '[' :: (serItemsJ (x :: xs) ++ ']' :: rest) := by
            rw [ser_arr]
            simp
          have hltI : sizeOf (x :: xs) < N := by
            simp only [JVal.jarr.sizeOf_spec] at hN
            omega
          rw [hin, parseVal_arr_go f _ c _
            (by rw [hhead, jskipWs_cons c _ hcws]) hcrb, ← hhead,
            (ih _ hltI).2.2 (x :: xs) rest f (le_refl _) (by simp) hwf (by omega)]
          rfl
      | jobj fs =>
        rw [WFJ_obj] at hwf
        cases fs with
        | nil =>
          rw [ser_obj, serFieldsJ_nil]
          rw [show ('\x7b' :: ([] : List Char) ++ ['\x7d']) ++ rest =
            '\x7b' :: ('\x7d' :: rest) from rfl]
          exact parseVal_obj_close f _ rest (jskipWs_cons _ _ (by decide))
        | cons f0 fs =>
          obtain ⟨k, v⟩ := f0
          have hlen2 : (serFieldsJ ((k, v) :: fs)).length + 2 =
              (ser (JVal.jobj ((k, v) :: fs))).length := by
            rw [ser_obj]
            simp [List.length_append]
          have hhead : serFieldsJ ((k, v) :: fs) ++ '\x7d' :: rest =
              '\"' :: (escStr k ++ '\"' :: ':' :: ser v ++
                ((if fs.isEmpty then [] else ',' :: serFieldsJ fs) ++
                  '\x7d' :: rest)) := by
            rw [serFieldsJ_cons]
            simp
          have hin : ser (JVal.jobj ((k, v) :: fs)) ++ rest =
              '\x7b' :: (serFieldsJ ((k, v) :: fs) ++ '\x7d' :: rest) := by
            rw [ser_obj]
            simp
          have hltM : sizeOf ((k, v) :: fs) < N := by
            simp only [JVal.jobj.sizeOf_spec] at hN
            omega
          rw [hin, parseVal_obj_go f _ '\"' _
            (by rw [hhead, jskipWs_cons _ _ (by decide)]) (by decide), ← hhead,
            (ih _ hltM).2.1 ((k, v) :: fs) rest f (le_refl _) (by simp) hwf (by omega)]
          rfl
  · intro fs rest fuel hN hne hwf hfuel
    cases fuel with
    | zero => omega
    | succ f =>
      cases fs with
      | nil => exact absurd rfl hne
      | cons f0 fs =>
        obtain ⟨k, v⟩ := f0
        rw [WFFieldsJ_cons] at hwf
        obtain ⟨hk, hv, hfs⟩ := hwf
        have hlserv : 1 ≤ (ser v).length := by
          obtain ⟨c, t, hct, -⟩ := ser_head v
          rw [hct]
          simp
        have hlen : (serFieldsJ ((k, v) :: fs)).length =
            (escStr k).length + 3 + (ser v).length +
              (if fs.isEmpty then 0 else 1 + (serFieldsJ fs).length) := by
          rw [serFieldsJ_cons]
          cases fs <;> simp [List.length_append] <;> omega
        have hin : serFieldsJ ((k, v) :: fs) ++ '\x7d' :: rest =
            '\"' :: (escStr k ++ '\"' ::
              (':' :: (ser v ++
                ((if fs.isEmpty then [] else ',' :: serFieldsJ fs) ++
                  '\x7d' :: rest)))) := by
          rw [serFieldsJ_cons]
          simp
        have hrest2 : ∀ c, ((if fs.isEmpty then [] else ',' :: serFieldsJ fs) ++
            '\x7d' :: rest).head? = some c → c.isDigit = false := by
          intro c hc
          cases fs <;> simp at hc <;> rw [← hc] <;> decide
        have hltV : sizeOf v < N := by
          simp only [List.cons.sizeOf_spec, Prod.mk.sizeOf_spec] at hN
          omega
        rw [hin, parseMembersJ_quote, parseStringBody_ser k _ hk]
        dsimp only
        rw [jskipWs_cons ':' _ (by decide)]
        dsimp only
        rw [if_pos rfl, jskipWs_ser, (ih _ hltV).1 v _ f (le_refl _) hv hrest2 (by omega)]
        dsimp only
        cases fs with
        | nil =>
          simp only [List.isEmpty_nil, ite_true, List.nil_append]
          rw [jskipWs_cons _ _ (by decide)]
          dsimp only
          rw [if_neg (by decide), if_pos rfl]
        | cons g gs =>
          simp only [List.isEmpty_cons, Bool.false_eq_true, if_false,
            List.cons_append]
          rw [jskipWs_cons _ _ (by decide)]
          dsimp only
          rw [if_pos rfl]
          obtain ⟨k2, v2⟩ := g
          have hltG : sizeOf ((k2, v2) :: gs) < N := by
            simp only [List.cons.sizeOf_spec, Prod.mk.sizeOf_spec] at hN ⊢
            omega
          rw [jskipWs_serFields k2 v2 gs,
            (ih _ hltG).2.1 ((k2, v2) :: gs) rest f (le_refl _) (by simp) hfs
              (by simp only [List.isEmpty_cons, Bool.false_eq_true,
                if_false] at hlen; omega)]
  · intro xs rest fuel hN hne hwf hfuel
    cases fuel with
    | zero => omega
    | succ f =>
      cases xs with
      | nil => exact absurd rfl hne
      | cons x xs =>
        rw [WFListJ_cons] at hwf
        obtain ⟨hx, hxs⟩ := hwf
        have hlserx : 1 ≤ (ser x).length := by
          obtain ⟨c, t, hct, -⟩ := ser_head x
          rw [hct]
          simp
        have hlen : (serItemsJ (x :: xs)).length =
            (ser x).length +
              (if xs.isEmpty then 0 else 1 + (serItemsJ xs).length) := by
          rw [serItemsJ_cons]
          cases xs <;> simp [List.length_append] <;> omega
        have hin : serItemsJ (x :: xs) ++ ']' :: rest =
            ser x ++ ((if xs.isEmpty then [] else ',' :: serItemsJ xs) ++
              ']' :: rest) := by
          rw [serItemsJ_cons]
          simp
        have hrest2 : ∀ c, ((if xs.isEmpty then [] else ',' :: serItemsJ xs) ++
            ']' :: rest).head? = some c → c.isDigit = false := by
          intro c hc
          cases xs <;> simp at hc <;> rw [← hc] <;> decide
        have hltX : sizeOf x < N := by
          simp only [List.cons.sizeOf_spec] at hN
          omega
        rw [hin, parseItemsJ_succ, (ih _ hltX).1 x _ f (le_refl _) hx hrest2 (by omega)]
        dsimp only
        cases xs with
        | nil =>
          simp only [List.isEmpty_nil, ite_true, List.nil_append]
          rw [jskipWs_cons _ _ (by decide)]
          dsimp only
          rw [if_neg (by decide), if_pos rfl]
        | cons y ys =>
          simp only [List.isEmpty_cons, Bool.false_eq_true, if_false,
            List.cons_append]
          rw [jskipWs_cons _ _ (by decide)]
          dsimp only
          rw [if_pos rfl]
          obtain ⟨c, t, hct, hcws, -⟩ := ser_head y
          have hltY : sizeOf (y :: ys) < N := by
            simp only [List.cons.sizeOf_spec] at hN ⊢
            omega
          have hskip : jskipWs (serItemsJ (y :: ys) ++ ']' :: rest) =
              serItemsJ (y :: ys) ++ ']' :: rest := by
            rw [serItemsJ_cons, hct]
            simp only [List.cons_append, List.append_assoc]
            exact jskipWs_cons c _ hcws
          rw [hskip, (ih _ hltY).2.2 (y :: ys) rest f (le_refl _) (by simp) hxs
            (by simp only [List.isEmpty_cons, Bool.false_eq_true,
              if_false] at hlen; omega)]

/-- Round trip for the scanner: scanning a serialized value followed by a
remainder that does not start with a digit consumes exactly that value. -/
theorem parseVal_ser (v : JVal) (rest : List Char) (fuel : Nat)
    (hwf : WFJ v) (hrest : ∀ c, rest.head? = some c → c.isDigit = false)
    (hfuel : (ser v).length < fuel) :
    parseVal fuel (ser v ++ rest) = some (v, rest) :=
  (parse_ser_triple (sizeOf v)).1 v rest fuel (le_refl _) hwf hrest hfuel

/-- Round trip for the member scanner: scanning serialized members followed
by the closing brace and a remainder consumes exactly those members. -/
theorem parseMembersJ_ser (fs : List (List Char × JVal)) (rest : List Char)
    (fuel : Nat) (hne : fs ≠ []) (hwf : WFFieldsJ fs)
    (hfuel : (serFieldsJ fs).length + 1 < fuel) :
    parseMembersJ fuel (serFieldsJ fs ++ '\x7d' :: rest) =
      some (fs, rest) :=
  (parse_ser_triple (sizeOf fs)).2.1 fs rest fuel (le_refl _) hne hwf hfuel

/-- Round trip for the item scanner: scanning serialized items followed by
the closing bracket and a remainder consumes exactly those items. -/
theorem parseItemsJ_ser (xs : List JVal) (rest : List Char) (fuel : Nat)
    (hne : xs ≠ []) (hwf : WFListJ xs)
    (hfuel : (serItemsJ xs).length + 1 < fuel) :
    parseItemsJ fuel (serItemsJ xs ++ ']' :: rest) = some (xs, rest) :=
  (parse_ser_triple (sizeOf xs)).2.2 xs rest fuel (le_refl _) hne hwf hfuel

/-- With arbitrary fuel, scanning a serialized value followed by a
non-digit-headed remainder either fails (fuel exhaustion) or returns
exactly that value and remainder. -/
theorem parseVal_ser_any (v : JVal) (rest : List Char) (fuel : Nat)
    (hwf : WFJ v) (hrest : ∀ c, rest.head? = some c → c.isDigit = false) :
    parseVal fuel (ser v ++ rest) = none ∨
    parseVal fuel (ser v ++ rest) = some (v, rest) := by
  cases h : parseVal fuel (ser v ++ rest) with
  | none => exact Or.inl rfl
  | some x =>
    right
    have hbig := (parse_mono fuel).1 _ (max fuel ((ser v).length + 1)) _
      (le_max_left _ _) h
    have hS := parseVal_ser v rest (max fuel ((ser v).length + 1)) hwf hrest
      (by have := le_max_right fuel ((ser v).length + 1); omega)
    rw [hbig] at hS
    exact hS

/-- The remaining document text is never empty. -/
theorem dsuffix2_ne_nil (f : Bool) (l : List JVal) : dsuffix2 f l ≠ [] := by
  cases l <;> cases f <;> simp [dsuffix2]

/-- Unfolding the remaining document text at a pending element. -/
theorem dsuffix2_cons (f : Bool) (e : JVal) (tl : List JVal) :
    dsuffix2 f (e :: tl) =
    (if f then '[' else ',') :: (ser e ++ dsuffix2 false tl) := by
  cases f <;> cases tl with
  | nil => simp [dsuffix2, serItemsJ]
  | cons y ys =>
    simp [dsuffix2, serItemsJ_cons]

/-- The remaining document text starts with a comma or the closing
bracket when the separator was already consumed. -/
theorem dsuffix2_false_head (tl : List JVal) :
    ∃ c r, dsuffix2 false tl = c :: r ∧ (c = ',' ∨ c = ']') := by
  cases tl with
  | nil => exact ⟨']', [], rfl, Or.inr rfl⟩
  | cons y ys => exact ⟨',', serItemsJ (y :: ys) ++ [']'], rfl, Or.inl rfl⟩

/-- A prefix of the remaining document text does not start with a digit. -/
theorem head_nondigit_of_dsuffix2 (p3 q : List Char) (tl : List JVal)
    (h : p3 ++ q = dsuffix2 false tl) :
    ∀ c, p3.head? = some c → c.isDigit = false := by
  intro c hc
  cases p3 with
  | nil => simp at hc
  | cons c3 p4 =>
    simp at hc
    obtain ⟨c0, r0, hd, hcs⟩ := dsuffix2_false_head tl
    rw [hd] at h
    simp at h
    rw [← hc, h.1]
    rcases hcs with rfl | rfl <;> decide

/-- The serialized array is the whole remaining document at the start. -/
theorem ser_arr_dsuffix2 (es : List JVal) :
    ser (JVal.jarr es) = dsuffix2 true es := by
  cases es with
  | nil => simp [ser_arr, serItemsJ, dsuffix2]
  | cons e tl => simp [ser_arr, dsuffix2]

/-- Prefix failure for the three scanners, by strong induction on a bound
of the structural size: with any fuel, on a strict prefix of a serialized
value the scanner fails or consumes the whole prefix (the latter never for
objects), and on a strict prefix of a serialized member or item list
followed by its closing delimiter the member and item scanners fail
outright. -/
theorem parse_prefix_triple (N : Nat) :
    (∀ (v : JVal) (p q : List Char) (fuel : Nat), sizeOf v ≤ N → WFJ v →
      ser v = p ++ q → q ≠ [] →
      parseVal fuel p = none ∨
        (isObjJ v = false ∧ ∃ u, parseVal fuel p = some (u, []))) ∧
    (∀ (fs : List (List Char × JVal)) (p q : List Char) (fuel : Nat),
      sizeOf fs ≤ N → fs ≠ [] → WFFieldsJ fs →
      serFieldsJ fs ++ ['\x7d'] = p ++ q → q ≠ [] →
      parseMembersJ fuel p = none) ∧
    (∀ (xs : List JVal) (p q : List Char) (fuel : Nat),
      sizeOf xs ≤ N → xs ≠ [] → WFListJ xs →
      serItemsJ xs ++ [']'] = p ++ q → q ≠ [] →
      parseItemsJ fuel p = none) := by
  induction N using Nat.strong_induction_on with
  | _ N ih =>
  refine ⟨?_, ?_, ?_⟩
  · intro v p q fuel hN hwf hsplit hq
    cases fuel with
    | zero => exact Or.inl (parseVal_zero p)
    | succ f =>
      cases v with
      | jnull =>
        left
        rw [ser_null] at hsplit
        cases p with
        | nil => exact parseVal_nil _
        | cons c p2 =>
          simp only [List.cons_append, List.cons.injEq] at hsplit
          obtain ⟨rfl, htl⟩ := hsplit
          rw [parseVal_n]
          have hne2 : p2.take 3 ≠ ['u', 'l', 'l'] := by
            intro ht
            have hlt := congrArg List.length ht
            have hle2 := congrArg List.length htl
            have hql : 0 < q.length := List.length_pos.mpr hq
            simp [List.length_take] at hlt hle2
            omega
          rw [if_neg hne2]
      | jbool b =>
        left
        cases b with
        | true =>
          rw [ser_true] at hsplit
          cases p with
          | nil => exact parseVal_nil _
          | cons c p2 =>
            simp only [List.cons_append, List.cons.injEq] at hsplit
            obtain ⟨rfl, htl⟩ := hsplit
            rw [parseVal_t]
            have hne2 : p2.take 3 ≠ ['r', 'u', 'e'] := by
              intro ht
              have hlt := congrArg List.length ht
              have hle2 := congrArg List.length htl
              have hql : 0 < q.length := List.length_pos.mpr hq
              simp [List.length_take] at hlt hle2
              omega
            rw [if_neg hne2]
        | false =>
          rw [ser_false] at hsplit
          cases p with
          | nil => exact parseVal_nil _
          | cons c p2 =>
            simp only [List.cons_append, List.cons.injEq] at hsplit
            obtain ⟨rfl, htl⟩ := hsplit
            rw [parseVal_f]
            have hne2 : p2.take 4 ≠ ['a', 'l', 's', 'e'] := by
              intro ht
              have hlt := congrArg List.length ht
              have hle2 := congrArg List.length htl
              have hql : 0 < q.length := List.length_pos.mpr hq
              simp [List.length_take] at hlt hle2
              omega
            rw [if_neg hne2]
      | jnum n =>
        rw [ser_num] at hsplit
        cases p with
        | nil => exact Or.inl (parseVal_nil _)
        | cons c p2 =>
          obtain ⟨c0, t0, hct, h1, h2, h3, h4, h5, h6⟩ := serInt_head n
          rw [hct] at hsplit
          simp only [List.cons_append, List.cons.injEq] at hsplit
          obtain ⟨rfl, ht0⟩ := hsplit
          rcases parseNumber_cut n (c0 :: p2) q
              (by rw [hct, ht0]; rfl) hq (by simp) with hn | ⟨u, hu⟩
          · left
            rw [parseVal_other f c0 p2 h1 h2 h3 h4 h5 h6, hn]
            rfl
          · right
            refine ⟨rfl, JVal.jnum u, ?_⟩
            rw [parseVal_other f c0 p2 h1 h2 h3 h4 h5 h6, hu]
            rfl
      | jstr cs =>
        left
        rw [WFJ_str] at hwf
        rw [ser_str] at hsplit
        cases p with
        | nil => exact parseVal_nil _
        | cons c p2 =>
          simp only [List.cons_append, List.cons.injEq] at hsplit
          obtain ⟨rfl, htl⟩ := hsplit
          rw [parseVal_quote, parseStringBody_cut cs p2 q hwf htl hq]
          rfl
      | jarr xs =>
        left
        rw [WFJ_arr] at hwf
        rw [ser_arr] at hsplit
        cases p with
        | nil => exact parseVal_nil _
        | cons c p2 =>
          simp only [List.cons_append, List.cons.injEq] at hsplit
          obtain ⟨rfl, htl⟩ := hsplit
          cases p2 with
          | nil => exact parseVal_arr_nil f [] rfl
          | cons c2 p3 =>
            cases xs with
            | nil =>
              exfalso
              rw [serItemsJ_nil] at htl
              simp only [List.nil_append, List.cons_append,
                List.cons.injEq] at htl
              have hq0 : p3 ++ q = [] := htl.2.symm
              simp at hq0
              exact hq hq0.2
            | cons x xs2 =>
              obtain ⟨c0, t0, hct, hws0, -, hrb, -, -, -⟩ := ser_head x
              have hhd : serItemsJ (x :: xs2) ++ [']'] =
                  c0 :: (t0 ++
                    ((if xs2.isEmpty then [] else ',' :: serItemsJ xs2) ++
                      [']'])) := by
                rw [serItemsJ_cons, hct]
                simp
              rw [hhd] at htl
              simp only [List.cons_append, List.cons.injEq] at htl
              obtain ⟨rfl, htail⟩ := htl
              have hlt : sizeOf (x :: xs2) < N := by
                simp only [JVal.jarr.sizeOf_spec] at hN
                omega
              rw [parseVal_arr_go f (c0 :: p3) c0 p3
                  (jskipWs_cons c0 p3 hws0) hrb,
                (ih _ hlt).2.2 (x :: xs2) (c0 :: p3) q f (le_refl _)
                  (by simp) hwf (by rw [hhd, htail]; rfl) hq]
              rfl
      | jobj fs =>
        left
        rw [WFJ_obj] at hwf
        rw [ser_obj] at hsplit
        cases p with
        | nil => exact parseVal_nil _
        | cons c p2 =>
          simp only [List.cons_append, List.cons.injEq] at hsplit
          obtain ⟨rfl, htl⟩ := hsplit
          cases p2 with
          | nil => exact parseVal_obj_nil f [] rfl
          | cons c2 p3 =>
            cases fs with
            | nil =>
              exfalso
              rw [serFieldsJ_nil] at htl
              simp only [List.nil_append, List.cons_append,
                List.cons.injEq] at htl
              have hq0 : p3 ++ q = [] := htl.2.symm
              simp at hq0
              exact hq hq0.2
            | cons g fs2 =>
              obtain ⟨k, v⟩ := g
              have hhd : serFieldsJ ((k, v) :: fs2) ++ ['\x7d'] =
                  '\"' :: (escStr k ++ '\"' :: ':' :: (ser v ++
                    ((if fs2.isEmpty then [] else ',' :: serFieldsJ fs2) ++
                      ['\x7d']))) := by
                rw [serFieldsJ_cons]
                simp
              rw [hhd] at htl
              simp only [List.cons_append, List.cons.injEq] at htl
              obtain ⟨rfl, htail⟩ := htl
              have hlt : sizeOf ((k, v) :: fs2) < N := by
                simp only [JVal.jobj.sizeOf_spec] at hN
                omega
              rw [parseVal_obj_go f ('\"' :: p3) '\"' p3
                  (jskipWs_cons _ _ (by decide)) (by decide),
                (ih _ hlt).2.1 ((k, v) :: fs2) ('\"' :: p3) q f (le_refl _)
                  (by simp) hwf (by rw [hhd, htail]; rfl) hq]
              rfl
  · intro fs p q fuel hN hne hwf hsplit hq
    cases fuel with
    | zero => exact parseMembersJ_zero p
    | succ f =>
      cases fs with
      | nil => exact absurd rfl hne
      | cons g fs2 =>
        obtain ⟨k, v⟩ := g
        rw [WFFieldsJ_cons] at hwf
        obtain ⟨hk, hv, hfs2⟩ := hwf
        have hltv : sizeOf v < N := by
          simp only [List.cons.sizeOf_spec, Prod.mk.sizeOf_spec] at hN
          omega
        have hlt2 : sizeOf fs2 < N := by
          simp only [List.cons.sizeOf_spec, Prod.mk.sizeOf_spec] at hN
          omega
        have hform : serFieldsJ ((k, v) :: fs2) ++ ['\x7d'] =
            '\"' :: ((escStr k ++ ['\"']) ++ (':' :: (ser v ++
              ((if fs2.isEmpty then [] else ',' :: serFieldsJ fs2) ++
                ['\x7d'])))) := by
          rw [serFieldsJ_cons]
          simp
        rw [hform] at hsplit
        cases p with
        | nil => exact parseMembersJ_nil _
        | cons c p2 =>
          simp only [List.cons_append, List.cons.injEq] at hsplit
          obtain ⟨rfl, hXY⟩ := hsplit
          rw [parseMembersJ_quote]
          rcases List.append_eq_append_iff.mp hXY with
            ⟨w, hpw, hYw⟩ | ⟨t, hXt, htY⟩
          · subst hpw
            have hkey : (escStr k ++ ['\"']) ++ w =
                escStr k ++ '\"' :: w := by simp
            rw [hkey, parseStringBody_ser k w hk]
            dsimp only
            cases w with
            | nil => rfl
            | cons cw w2 =>
              simp only [List.cons_append, List.cons.injEq] at hYw
              obtain ⟨rfl, hsv⟩ := hYw
              rw [jskipWs_cons ':' w2 (by decide)]
              dsimp only
              rw [if_pos rfl]
              rcases List.append_eq_append_iff.mp hsv with
                ⟨w3, hw2, hs3⟩ | ⟨t, hvt, hts⟩
              · subst hw2
                rw [jskipWs_ser v w3]
                have hw3head : ∀ ch, w3.head? = some ch →
                    ch.isDigit = false := by
                  intro ch hch
                  cases w3 with
                  | nil => simp at hch
                  | cons c3 w4 =>
                    simp at hch
                    cases hfe : fs2 with
                    | nil =>
                      rw [hfe] at hs3
                      simp only [List.isEmpty_nil, ite_true,
                        List.nil_append, List.cons_append,
                        List.cons.injEq] at hs3
                      rw [← hch, ← hs3.1]
                      decide
                    | cons g2 gs2 =>
                      rw [hfe] at hs3
                      simp only [List.isEmpty_cons, Bool.false_eq_true,
                        if_false, List.cons_append,
                        List.cons.injEq] at hs3
                      rw [← hch, ← hs3.1]
                      decide
                rcases parseVal_ser_any v w3 f hv hw3head with hnone | hsome
                · rw [hnone]
                · rw [hsome]
                  dsimp only
                  cases w3 with
                  | nil => rfl
                  | cons c3 w4 =>
                    cases fs2 with
                    | nil =>
                      exfalso
                      simp only [List.isEmpty_nil, ite_true,
                        List.nil_append, List.cons_append,
                        List.cons.injEq] at hs3
                      have hq0 : w4 ++ q = [] := hs3.2.symm
                      simp at hq0
                      exact hq hq0.2
                    | cons g2 gs2 =>
                      simp only [List.isEmpty_cons, Bool.false_eq_true,
                        if_false, List.cons_append,
                        List.cons.injEq] at hs3
                      obtain ⟨hc3, hw4q⟩ := hs3
                      rw [← hc3]
                      rw [jskipWs_cons ',' w4 (by decide)]
                      dsimp only
                      rw [if_pos rfl]
                      cases w4 with
                      | nil =>
                        rw [show jskipWs ([] : List Char) = [] from rfl,
                          parseMembersJ_nil]
                      | cons c4 w5 =>
                        obtain ⟨k2, v2⟩ := g2
                        have hhd2 : serFieldsJ ((k2, v2) :: gs2) ++
                            ['\x7d'] = '\"' :: (escStr k2 ++ '\"' :: ':' ::
                              (ser v2 ++
                                ((if gs2.isEmpty then []
                                  else ',' :: serFieldsJ gs2) ++
                                  ['\x7d']))) := by
                          rw [serFieldsJ_cons]
                          simp
                        have hw4q2 := hw4q
                        rw [hhd2] at hw4q2
                        simp only [List.cons_append,
                          List.cons.injEq] at hw4q2
                        obtain ⟨hc4, -⟩ := hw4q2
                        rw [← hc4]
                        rw [jskipWs_cons '\"' w5 (by decide)]
                        rw [← hc4] at hw4q
                        rw [(ih _ hlt2).2.1 ((k2, v2) :: gs2) ('\"' :: w5)
                          q f (le_refl _) (by simp) hfs2 hw4q hq]
              · by_cases ht : t = []
                · subst ht
                  rw [List.append_nil] at hvt
                  subst hvt
                  have hjs : jskipWs (ser v) = ser v := by
                    have h0 := jskipWs_ser v []
                    simpa using h0
                  rw [hjs]
                  rw [show (ser v : List Char) = ser v ++ [] from by simp]
                  rcases parseVal_ser_any v [] f hv
                      (by intro ch hch; simp at hch) with hnone | hsome
                  · rw [hnone]
                  · rw [hsome]
                    dsimp only
                    rfl
                · cases hw2c : w2 with
                  | nil =>
                    rw [show jskipWs ([] : List Char) = [] from rfl,
                      parseVal_nil]
                  | cons c3 w4 =>
                    obtain ⟨c0, t0, hct, hws0, -, -, -, -, -⟩ := ser_head v
                    have hvt2 := hvt
                    rw [hw2c, hct] at hvt2
                    simp only [List.cons_append, List.cons.injEq] at hvt2
                    obtain ⟨heq, -⟩ := hvt2
                    rw [jskipWs_cons c3 w4 (by rw [← heq]; exact hws0)]
                    rw [hw2c] at hvt
                    rcases (ih _ hltv).1 v (c3 :: w4) t f (le_refl _) hv
                        hvt ht with hnone | ⟨-, u, hu⟩
                    · rw [hnone]
                    · rw [hu]
                      dsimp only
                      rfl
          · by_cases ht : t = []
            · subst ht
              rw [List.append_nil] at hXt
              subst hXt
              rw [show escStr k ++ ['\"'] =
                  escStr k ++ '\"' :: ([] : List Char) from by simp,
                parseStringBody_ser k [] hk]
              dsimp only
              rfl
            · rw [parseStringBody_cut k p2 t hk hXt ht]
  · intro xs p q fuel hN hne hwf hsplit hq
    cases fuel with
    | zero => exact parseItemsJ_zero p
    | succ f =>
      cases xs with
      | nil => exact absurd rfl hne
      | cons x xs2 =>
        rw [WFListJ_cons] at hwf
        obtain ⟨hx, hxs2⟩ := hwf
        have hltx : sizeOf x < N := by
          simp only [List.cons.sizeOf_spec] at hN
          omega
        have hlt2 : sizeOf xs2 < N := by
          simp only [List.cons.sizeOf_spec] at hN
          omega
        rw [parseItemsJ_succ]
        have hform : serItemsJ (x :: xs2) ++ [']'] =
            ser x ++ ((if xs2.isEmpty then [] else ',' :: serItemsJ xs2) ++
              [']']) := by
          rw [serItemsJ_cons]
          simp
        rw [hform] at hsplit
        rcases List.append_eq_append_iff.mp hsplit with
          ⟨w, hpw, hsw⟩ | ⟨t, hxt, hts⟩
        · subst hpw
          have hwhead : ∀ ch, w.head? = some ch → ch.isDigit = false := by
            intro ch hch
            cases w with
            | nil => simp at hch
            | cons c2 w2 =>
              simp at hch
              cases hxe : xs2 with
              | nil =>
                rw [hxe] at hsw
                simp only [List.isEmpty_nil, ite_true, List.nil_append,
                  List.cons_append, List.cons.injEq] at hsw
                rw [← hch, ← hsw.1]
                decide
              | cons y ys =>
                rw [hxe] at hsw
                simp only [List.isEmpty_cons, Bool.false_eq_true, if_false,
                  List.cons_append, List.cons.injEq] at hsw
                rw [← hch, ← hsw.1]
                decide
          rcases parseVal_ser_any x w f hx hwhead with hnone | hsome
          · rw [hnone]
          · rw [hsome]
            dsimp only
            cases w with
            | nil => rfl
            | cons c2 w2 =>
              cases xs2 with
              | nil =>
                exfalso
                simp only [List.isEmpty_nil, ite_true, List.nil_append,
                  List.cons_append, List.cons.injEq] at hsw
                have hq0 : w2 ++ q = [] := hsw.2.symm
                simp at hq0
                exact hq hq0.2
              | cons y ys =>
                simp only [List.isEmpty_cons, Bool.false_eq_true, if_false,
                  List.cons_append, List.cons.injEq] at hsw
                obtain ⟨hc2, hw2q⟩ := hsw
                rw [← hc2]
                rw [jskipWs_cons ',' w2 (by decide)]
                dsimp only
                rw [if_pos rfl]
                cases w2 with
                | nil =>
                  rw [show jskipWs ([] : List Char) = [] from rfl,
                    parseItemsJ_nil]
                | cons c3 w3 =>
                  obtain ⟨c0, t0, hct, hws0, -, -, -, -, -⟩ := ser_head y
                  have hhd3 : serItemsJ (y :: ys) ++ [']'] =
                      c0 :: (t0 ++
                        ((if ys.isEmpty then [] else ',' :: serItemsJ ys) ++
                          [']'])) := by
                    rw [serItemsJ_cons, hct]
                    simp
                  have hw2q2 := hw2q
                  rw [hhd3] at hw2q2
                  simp only [List.cons_append, List.cons.injEq] at hw2q2
                  obtain ⟨hc3, -⟩ := hw2q2
                  rw [← hc3]
                  rw [jskipWs_cons c0 w3 hws0]
                  rw [← hc3] at hw2q
                  rw [(ih _ hlt2).2.2 (y :: ys) (c0 :: w3) q f (le_refl _)
                    (by simp) hxs2 hw2q hq]
        · by_cases ht : t = []
          · subst ht
            rw [List.append_nil] at hxt
            subst hxt
            rw [show (ser x : List Char) = ser x ++ [] from by simp]
            rcases parseVal_ser_any x [] f hx
                (by intro ch hch; simp at hch) with hnone | hsome
            · rw [hnone]
            · rw [hsome]
              dsimp only
              rfl
          · rcases (ih _ hltx).1 x p t f (le_refl _) hx hxt ht with
              hnone | ⟨-, u, hu⟩
            · rw [hnone]
            · rw [hu]
              dsimp only
              rfl

/-- The decode loop with exhausted fuel keeps the buffer. -/
theorem decodeLoop_zero (buf : List Char) : decodeLoop 0 buf = ([], buf) := rfl

/-- The decode loop stops on an empty buffer. -/
theorem decodeLoop_nil (f : Nat) : decodeLoop (f + 1) [] = ([], []) := rfl

/-- The decode loop drops a leading opening bracket. -/
theorem decodeLoop_lb (f : Nat) (r : List Char) :
    decodeLoop (f + 1) ('[' :: r) = decodeLoop f r := rfl

/-- The decode loop drops a leading comma. -/
theorem decodeLoop_comma (f : Nat) (r : List Char) :
    decodeLoop (f + 1) (',' :: r) = decodeLoop f r := rfl

/-- The decode loop at an opening brace attempts a raw decode. -/
theorem decodeLoop_objhead (f : Nat) (r : List Char) :
    decodeLoop (f + 1) ('\x7b' :: r) =
    (match rawDecode ('\x7b' :: r) with
     | some (v, r2) => (v :: (decodeLoop f r2).1, (decodeLoop f r2).2)
     | none => ([], '\x7b' :: r)) := rfl

/-- The decode loop on the lone closing bracket stalls and keeps it. -/
theorem decodeLoop_rb (f : Nat) : decodeLoop (f + 1) [']'] = ([], [']']) := rfl

/-- The scanner fails on every strict prefix of a serialized object, with
any fuel. -/
theorem rawDecode_obj_cut (e : JVal) (p q : List Char) (fuel : Nat)
    (hobj : isObjJ e = true) (hwf : WFJ e) (hsplit : ser e = p ++ q)
    (hq : q ≠ []) : parseVal fuel p = none := by
  rcases (parse_prefix_triple (sizeOf e)).1 e p q fuel (le_refl _) hwf
      hsplit hq with h | ⟨hno, -⟩
  · exact h
  · rw [hobj] at hno
    exact absurd hno (by simp)

/-- Behaviour of the decode loop on any buffer consistent with the
remaining document: it emits a prefix of the pending object list and
leaves a buffer satisfying the decoder invariant against the unseen
remainder. -/
theorem decodeLoop_spec (fuel : Nat) :
    ∀ (l : List JVal) (p q : List Char),
      (∀ e ∈ l, isObjJ e = true ∧ WFJ e) →
      ((∃ f0, p ++ q = dsuffix2 f0 l) ∨
        (∃ e tl, l = e :: tl ∧ p ++ q = ser e ++ dsuffix2 false tl)) →
      p.length < fuel →
      ∃ m buf, decodeLoop fuel p = (l.take m, buf) ∧ m ≤ l.length ∧
        ((buf = [] ∧ ∃ f2, q = dsuffix2 f2 (l.drop m)) ∨
         (∃ e tl, l.drop m = e :: tl ∧
           buf ++ q = ser e ++ dsuffix2 false tl ∧
           buf.length < (ser e).length) ∨
         (l.drop m = [] ∧ buf = [']'] ∧ q = [])) := by
  induction fuel with
  | zero =>
    intro l p q hall hshape hlen
    omega
  | succ f ih =>
    intro l p q hall hshape hlen
    rcases hshape with ⟨f0, hsp⟩ | ⟨e, tl, rfl, hsp⟩
    · cases l with
      | nil =>
        cases f0 with
        | true =>
          have hsp2 : p ++ q = ['[', ']'] := hsp
          cases p with
          | nil =>
            exact ⟨0, [], by rw [decodeLoop_nil]; rfl, by simp,
              Or.inl ⟨rfl, true, by simpa using hsp2⟩⟩
          | cons c p2 =>
            obtain ⟨rfl, h2⟩ : c = '[' ∧ p2 ++ q = [']'] := by
              simpa using hsp2
            rw [decodeLoop_lb]
            cases p2 with
            | nil =>
              exact ih [] [] q hall (Or.inl ⟨false, by simpa using h2⟩)
                (by simp only [List.length_cons, List.length_nil]
                  at hlen ⊢; omega)
            | cons c2 p3 =>
              obtain ⟨rfl, h3⟩ : c2 = ']' ∧ p3 ++ q = [] := by simpa using h2
              obtain ⟨rfl, rfl⟩ : p3 = [] ∧ q = [] := by simpa using h3
              obtain ⟨f2, rfl⟩ : ∃ f2, f = f2 + 1 :=
                ⟨f - 1, by simp at hlen; omega⟩
              rw [decodeLoop_rb]
              exact ⟨0, [']'], rfl, by simp, Or.inr (Or.inr ⟨rfl, rfl, rfl⟩)⟩
        | false =>
          have hsp2 : p ++ q = [']'] := hsp
          cases p with
          | nil =>
            exact ⟨0, [], by rw [decodeLoop_nil]; rfl, by simp,
              Or.inl ⟨rfl, false, by simpa using hsp2⟩⟩
          | cons c p2 =>
            obtain ⟨rfl, h2⟩ : c = ']' ∧ p2 ++ q = [] := by simpa using hsp2
            obtain ⟨rfl, rfl⟩ : p2 = [] ∧ q = [] := by simpa using h2
            rw [decodeLoop_rb]
            exact ⟨0, [']'], rfl, by simp, Or.inr (Or.inr ⟨rfl, rfl, rfl⟩)⟩
      | cons e tl =>
        cases p with
        | nil =>
          exact ⟨0, [], by rw [decodeLoop_nil]; rfl, by simp,
            Or.inl ⟨rfl, f0, by simpa using hsp⟩⟩
        | cons c p2 =>
          rw [dsuffix2_cons] at hsp
          have hc : c = (if f0 then '[' else ',') ∧
              p2 ++ q = ser e ++ dsuffix2 false tl := by simpa using hsp
          obtain ⟨rfl, hs2⟩ := hc
          have hstep : decodeLoop (f + 1)
              ((if f0 then '[' else ',') :: p2) = decodeLoop f p2 := by
            cases f0
            · exact decodeLoop_comma f p2
            · exact decodeLoop_lb f p2
          rw [hstep]
          exact ih (e :: tl) p2 q hall (Or.inr ⟨e, tl, rfl, hs2⟩)
            (by simp at hlen; omega)
    · obtain ⟨hobj, hwfe⟩ := hall e (by simp)
      obtain ⟨fs, rfl⟩ : ∃ fs, e = JVal.jobj fs := by
        cases e with
        | jobj fs => exact ⟨fs, rfl⟩
        | jnull => simp [isObjJ] at hobj
        | jbool b => simp [isObjJ] at hobj
        | jnum n => simp [isObjJ] at hobj
        | jstr s => simp [isObjJ] at hobj
        | jarr a => simp [isObjJ] at hobj
      have hse : 1 ≤ (ser (JVal.jobj fs)).length := by
        obtain ⟨c0, t0, hct0, -⟩ := ser_head (JVal.jobj fs)
        rw [hct0]
        simp
      rcases List.append_eq_append_iff.mp hsp with
        ⟨t, hpt, hqt⟩ | ⟨w, hpw, hwq⟩
      · by_cases ht : t = []
        · subst ht
          rw [List.append_nil] at hpt
          subst hpt
          simp only [List.nil_append] at hqt
          have hrd : rawDecode ('\x7b' :: (serFieldsJ fs ++ ['\x7d'])) =
              some (JVal.jobj fs, []) := by
            have hser : '\x7b' :: (serFieldsJ fs ++ ['\x7d']) =
                ser (JVal.jobj fs) ++ [] := by
              rw [ser_obj]
              simp
            unfold rawDecode
            rw [hser]
            refine parseVal_ser (JVal.jobj fs) [] _ hwfe
              (by intro ch hch; simp at hch) ?_
            simp
          have hlen2 : 2 ≤ (ser (JVal.jobj fs)).length := by
            rw [ser_obj]
            simp only [List.length_cons, List.length_append,
              List.length_nil]
            omega
          obtain ⟨f2, rfl⟩ : ∃ f2, f = f2 + 1 := ⟨f - 1, by omega⟩
          refine ⟨1, [], ?_, by simp, Or.inl ⟨rfl, false, by simpa using hqt⟩⟩
          rw [ser_obj, List.cons_append, decodeLoop_objhead, hrd]
          dsimp only
          rw [decodeLoop_nil]
          rfl
        · cases p with
          | nil =>
            refine ⟨0, [], by rw [decodeLoop_nil]; rfl, by simp,
              Or.inr (Or.inl ⟨JVal.jobj fs, tl, rfl, by simpa using hsp, ?_⟩)⟩
            simpa using hse
          | cons c p2 =>
            have hc : c = '\x7b' := by
              have h0 := hpt
              rw [ser_obj] at h0
              simp only [List.cons_append, List.cons.injEq] at h0
              exact h0.1.symm
            subst hc
            have hrd : rawDecode ('\x7b' :: p2) = none := by
              unfold rawDecode
              exact rawDecode_obj_cut (JVal.jobj fs) ('\x7b' :: p2) t _
                hobj hwfe hpt ht
            refine ⟨0, '\x7b' :: p2,
              by rw [decodeLoop_objhead, hrd]; rfl,
              by simp, Or.inr (Or.inl ⟨JVal.jobj fs, tl, rfl, hsp, ?_⟩)⟩
            have hlc := congrArg List.length hpt
            have ht2 : 0 < t.length := List.length_pos.mpr ht
            simp at hlc
            simp
            omega
      · subst hpw
        have hin : ser (JVal.jobj fs) ++ w =
            '\x7b' :: (serFieldsJ fs ++ ['\x7d'] ++ w) := by
          rw [ser_obj]
          simp
        have hrd : rawDecode ('\x7b' :: (serFieldsJ fs ++ ['\x7d'] ++ w)) =
            some (JVal.jobj fs, w) := by
          unfold rawDecode
          rw [← hin]
          refine parseVal_ser (JVal.jobj fs) w _ hwfe
            (head_nondigit_of_dsuffix2 w q tl hwq.symm) ?_
          simp
          omega
        have hfw : w.length < f := by
          simp at hlen
          omega
        obtain ⟨m2, buf2, hdl, hm2, hsh2⟩ := ih tl w q
          (fun x hx => hall x (by simp [hx])) (Or.inl ⟨false, hwq.symm⟩) hfw
        refine ⟨m2 + 1, buf2, ?_, by simp; omega, ?_⟩
        · rw [hin, decodeLoop_objhead, hrd]
          dsimp only
          rw [hdl]
          rw [List.take_succ_cons]
        · simpa [List.drop_succ_cons] using hsh2

/-- The decoder run from a state does nothing on no chunks. -/
theorem feedFrom_nil (st : List JVal × List Char) : feedFrom st [] = st :=
  rfl

/-- The decoder run from a state processes the first chunk and
continues. -/
theorem feedFrom_cons (st : List JVal × List Char) (ch : List Char)
    (chs : List (List Char)) :
    feedFrom st (ch :: chs) =
    feedFrom (st.1 ++ (decodeChunk st.2 ch).1, (decodeChunk st.2 ch).2)
      chs := rfl

/-- `feedChunks` is the decoder run from the empty initial state. -/
theorem feedChunks_eq_feedFrom (chunks : List (List Char)) :
    feedChunks chunks = feedFrom ([], []) chunks := rfl

/-- Feeding one chunk preserves the decoder invariant: the newly decoded
objects extend the output to a longer prefix of the element list. -/
theorem decodeChunk_state (es out : List JVal) (buf ch rest : List Char)
    (hall : ∀ e ∈ es, isObjJ e = true ∧ WFJ e)
    (h : DecState es out buf (ch ++ rest)) :
    DecState es (out ++ (decodeChunk buf ch).1) (decodeChunk buf ch).2
      rest := by
  obtain ⟨M, hM, hout, hshape⟩ := h
  have hallM : ∀ e ∈ es.drop M, isObjJ e = true ∧ WFJ e := by
    intro e he
    exact hall e (List.mem_of_mem_drop he)
  have hld := List.length_drop M es
  rcases hshape with ⟨hbuf, f1, hrest⟩ | ⟨e, tl, hdrop, hbr, hlt⟩ |
    ⟨hdrop, hbuf, hrest⟩
  · subst hbuf
    obtain ⟨m2, buf2, hdl, hm2, hsh⟩ :=
      decodeLoop_spec ((([] : List Char) ++ ch).length + 1) (es.drop M)
        (([] : List Char) ++ ch) rest hallM
        (Or.inl ⟨f1, by simpa using hrest⟩) (by omega)
    have hchunk : decodeChunk [] ch = ((es.drop M).take m2, buf2) := by
      unfold decodeChunk
      exact hdl
    rw [hchunk]
    have hdd : (es.drop M).drop m2 = es.drop (M + m2) := by
      rw [List.drop_drop, Nat.add_comm]
    refine ⟨M + m2, by omega, ?_, ?_⟩
    · rw [hout, List.take_add]
    · rw [← hdd]
      exact hsh
  · obtain ⟨m2, buf2, hdl, hm2, hsh⟩ :=
      decodeLoop_spec ((buf ++ ch).length + 1) (es.drop M)
        (buf ++ ch) rest hallM
        (Or.inr ⟨e, tl, hdrop, by simpa [List.append_assoc] using hbr⟩)
        (by omega)
    have hchunk : decodeChunk buf ch = ((es.drop M).take m2, buf2) := by
      unfold decodeChunk
      exact hdl
    rw [hchunk]
    have hdd : (es.drop M).drop m2 = es.drop (M + m2) := by
      rw [List.drop_drop, Nat.add_comm]
    refine ⟨M + m2, by omega, ?_, ?_⟩
    · rw [hout, List.take_add]
    · rw [← hdd]
      exact hsh
  · obtain ⟨rfl, rfl⟩ : ch = [] ∧ rest = [] := by
      simpa using hrest
    subst hbuf
    have hchunk : decodeChunk [']'] [] = ([], [']']) := rfl
    rw [hchunk]
    refine ⟨M, hM, ?_, Or.inr (Or.inr ⟨hdrop, rfl, rfl⟩)⟩
    rw [List.append_nil]
    exact hout

/-- Folding the decoder over any chunk list maintains the decoder
invariant, with the unseen remainder shrinking by the text of the
consumed chunks. -/
theorem feed_go (es : List JVal)
    (hall : ∀ e ∈ es, isObjJ e = true ∧ WFJ e) :
    ∀ (chunks : List (List Char)) (out : List JVal) (buf q : List Char),
      DecState es out buf (chunks.join ++ q) →
      DecState es (feedFrom (out, buf) chunks).1
        (feedFrom (out, buf) chunks).2 q := by
  intro chunks
  induction chunks with
  | nil =>
    intro out buf q h
    rw [feedFrom_nil]
    simpa using h
  | cons ch chs ihc =>
    intro out buf q h
    rw [feedFrom_cons]
    have h2 := decodeChunk_state es out buf ch (chs.join ++ q) hall
      (by simpa [List.append_assoc] using h)
    exact ihc _ _ q h2

/-- The decoder starts in the invariant state. -/
theorem decState_init (es : List JVal) :
    DecState es [] [] (ser (JVal.jarr es)) := by
  refine ⟨0, by simp, rfl, Or.inl ⟨rfl, true, ?_⟩⟩
  simpa using ser_arr_dsuffix2 es

/-- C7: for every finite JSON array whose elements are (well-formed)
JSON objects and every partition of its serialized text into a sequence
of chunks, feeding the chunks in order to the stream decoder yields
exactly the array's objects in order, and feeding only a prefix of the
chunks yields a prefix of that object sequence. -/
theorem decoder_equivalence (es : List JVal) (chunks : List (List Char))
    (hall : ∀ e ∈ es, isObjJ e = true ∧ WFJ e)
    (hjoin : chunks.join = ser (JVal.jarr es)) :
    (feedChunks chunks).1 = es ∧
    ∀ i, ∃ m, (feedChunks (chunks.take i)).1 = es.take m := by
  constructor
  · have hfull := feed_go es hall chunks [] [] []
      (by rw [List.append_nil, hjoin]; exact decState_init es)
    rw [feedChunks_eq_feedFrom]
    obtain ⟨m, hm, hout, hsh⟩ := hfull
    rcases hsh with ⟨hbuf, f2, hrest⟩ | ⟨e, tl, hdrop, hbr, hlt⟩ |
      ⟨hdrop, -, -⟩
    · exact absurd hrest.symm (dsuffix2_ne_nil f2 (es.drop m))
    · exfalso
      obtain ⟨c0, r0, hd0, -⟩ := dsuffix2_false_head tl
      have hlb := congrArg List.length hbr
      rw [hd0] at hlb
      simp at hlb
      omega
    · have hml : es.length ≤ m := by
        have h0 := congrArg List.length hdrop
        simp at h0
        omega
      rw [hout, List.take_of_length_le hml]
  · intro i
    have hsplit : (chunks.take i).join ++ (chunks.drop i).join =
        ser (JVal.jarr es) := by
      rw [← List.join_append, List.take_append_drop]
      exact hjoin
    have h := feed_go es hall (chunks.take i) [] [] ((chunks.drop i).join)
      (by rw [hsplit]; exact decState_init es)
    obtain ⟨m, hm, hout, -⟩ := h
    rw [feedChunks_eq_feedFrom]
    exact ⟨m, hout⟩

/-- C7 witness: the serialized two-object array split into the four chunks
`[{"a"`, `:1},{"b`, `":"x`, `"}]` decodes to exactly the two objects. -/
theorem decoder_equivalence_witness :
    (feedChunks [['[', '\x7b', '\"', 'a', '\"'],
      [':', '1', '\x7d', ',', '\x7b', '\"', 'b'],
      ['\"', ':', '\"', 'x'], ['\"', '\x7d', ']']]).1 =
    [JVal.jobj [(['a'], JVal.jnum 1)],
      JVal.jobj [(['b'], JVal.jstr ['x'])]] :=
  (decoder_equivalence
    [JVal.jobj [(['a'], JVal.jnum 1)], JVal.jobj [(['b'], JVal.jstr ['x'])]]
    [['[', '\x7b', '\"', 'a', '\"'],
      [':', '1', '\x7d', ',', '\x7b', '\"', 'b'],
      ['\"', ':', '\"', 'x'], ['\"', '\x7d', ']']]
    (by
      intro e he
      simp at he
      rcases he with rfl | rfl
      · exact ⟨rfl, by simp [WFJ, WFFieldsJ]⟩
      · exact ⟨rfl, by simp [WFJ, WFFieldsJ]⟩)
    (by
      simp [ser, serItemsJ, serFieldsJ, serInt, serNat, natDigits, decDigitChar,
        escStr, escChar])).1

end BG
